import Mathlib

/-!
Verification of the Souffle `MinimiseProgramTransformer` pass
(src/ast/transform/MinimiseProgramTransformer.cpp).

The development shallowly embeds the pass over a Lean model of the Souffle
AST.  The AST classes themselves (AstArgument.h, AstClause.h, AstProgram.h,
AstUtils.h, ...) are not part of the provided sources, so the data model and
the narrow AST helper interfaces are modelled from the specification's data
model (spec sections 3 and 6); every piece of pass logic is transcribed from
MinimiseProgramTransformer.cpp itself.

Out-of-bounds vector accesses and failed `assert`s in the C++ (both
undefined or aborting behaviour) are modelled by `Option`-valued functions
returning `none`.
-/

namespace Souffle

/-- Modelled from the spec: qualified names are the identity of relations and
atoms; they are compared for equality only, so we model them as strings
(`AstQualifiedName`, not in src). -/
abbrev QName := String

/-- Modelled from the spec: the kind tag of a numeric constant
(`AstNumericConstant::Type`, not in src); constants are equal only if both
value and kind agree. -/
inductive NumKind where
  | signed
  | unsigned
  | floating
deriving DecidableEq

/-- Modelled from the spec: `AstArgument` (not in src).  Arguments are
variables, string/numeric/nil constants, or some other non-primitive
argument kind (records, functors, unnamed variables, ...), which the pass
only ever inspects through `dynamic_cast` type tests. -/
inductive Arg where
  | var (name : String)
  | strConst (val : String)
  | numConst (kind : NumKind) (val : Int)
  | nilConst
  | other (tag : Nat)
deriving DecidableEq

/-- `dynamic_cast<AstVariable*>` succeeds. -/
def Arg.isVar : Arg → Bool
  | .var _ => true
  | _ => false

/-- `dynamic_cast<AstConstant*>` succeeds (string, numeric and nil constants
are the `AstConstant` subclasses). -/
def Arg.isConst : Arg → Bool
  | .strConst _ => true
  | .numConst _ _ => true
  | .nilConst => true
  | _ => false

/-- Modelled from the spec: `AstLiteral` (not in src): an atom, or a non-atom
literal (negation or constraint), which the pass treats opaquely apart from
structural equality and its argument children. -/
inductive Literal where
  | atom (name : QName) (args : List Arg)
  | negation (name : QName) (args : List Arg)
  | constraintLit (op : Nat) (args : List Arg)
deriving DecidableEq

/-- `dynamic_cast<AstAtom*>` succeeds. -/
def Literal.isAtom : Literal → Bool
  | .atom _ _ => true
  | _ => false

/-- The argument children of a literal (what `visitDepthFirst` over
`AstArgument` reaches below this literal). -/
def Literal.args : Literal → List Arg
  | .atom _ as => as
  | .negation _ as => as
  | .constraintLit _ as => as

/-- Modelled from the spec: `AstClause` (not in src): one head atom (name and
arguments) and an ordered body of literals. -/
structure Clause where
  headName : QName
  headArgs : List Arg
  body : List Literal
deriving DecidableEq

/-- The head of a clause, as a literal (`clause->getHead()`). -/
def Clause.headAtom (c : Clause) : Literal := .atom c.headName c.headArgs

/-- All arguments in the clause, in visit order: what
`visitDepthFirst(clause, [](const AstArgument&){...})` reaches.  Arguments in
this model are flat, so the visit is the concatenation of the head's and each
body literal's argument lists. -/
def Clause.allArgs (c : Clause) : List Arg :=
  c.headArgs ++ c.body.flatMap Literal.args

/-- The variable names occurring in the clause, in visit order: what
`visitDepthFirst(clause, [](const AstVariable& var){...})` reaches. -/
def Clause.varNames (c : Clause) : List String :=
  c.allArgs.filterMap (fun a => match a with | .var n => some n | _ => none)

/-- The set of distinct variable names of a clause
(`std::set<std::string>` filled by the depth-first visit). -/
def Clause.varSet (c : Clause) : Finset String := c.varNames.toFinset

/-!  ## Permutation enumerator (`extractPermutations`)  -/

/-- The `validMoves` table of `extractPermutations`: row `i` lists, in
increasing order, the columns `j` with `permutationMatrix[i][j] == 1`.
Rows shorter than the matrix are read past their end by the C++ (`[i][j]`
with `j < clauseSize`); `List.getD _ 0` extends them with zeros, which is
only relied upon for genuinely square matrices. -/
def buildValidMoves (m : List (List Nat)) : List (List Nat) :=
  (List.range m.length).map
    (fun i => (List.range m.length).filter (fun j => (m.getD i []).getD j 0 == 1))

/-- One step.. the whole DFS `while (!todoStack.empty())` loop of
`extractPermutations`, as a fuel-indexed recursion.  State:
`stack` is `todoStack` (head = top), `seen` the 0/1 occurrence vector,
`cur` is `currentPermutation`, `acc` is `permutations`, `idx` is
`currentIdx`.  `none` means the fuel ran out (never happens: `permFuel`
dominates the loop's decreasing measure). -/
def permLoop (vm : List (List Nat)) (clauseSize : Nat) :
    Nat → List (List Nat) → List Nat → List Nat → List (List Nat) → Nat →
    Option (List (List Nat))
  | 0, _, _, _, _, _ => none
  | fuel + 1, stack, seen, cur, acc, idx =>
    match stack with
    | [] => some acc
    | top :: rest =>
      if idx = clauseSize then
        -- permutation is complete
        let acc' := acc ++ [cur]
        if idx = 0 then
          -- already at starting position: break
          some acc'
        else
          -- undo the last number added to the permutation
          let idx' := idx - 1
          let lastNum := cur.getD idx' 0
          permLoop vm clauseSize fuel (top :: rest) (seen.set lastNum 0)
            cur.dropLast acc' idx'
      else
        match top with
        | [] =>
          -- no more possibilities at this point, so undo our last move
          if idx = 0 then
            -- already at starting position: break
            some acc
          else
            let idx' := idx - 1
            let lastNum := cur.getD idx' 0
            permLoop vm clauseSize fuel rest (seen.set lastNum 0)
              cur.dropLast acc idx'
        | nextNum :: poss =>
          -- try the next possibility; push the rest back
          if seen.getD nextNum 0 ≠ 0 then
            -- number already seen in this permutation
            permLoop vm clauseSize fuel (poss :: rest) seen cur acc idx
          else
            let seen' := seen.set nextNum 1
            let cur' := cur ++ [nextNum]
            let idx' := idx + 1
            let stack' :=
              if idx' < clauseSize then vm.getD idx' [] :: poss :: rest
              else poss :: rest
            permLoop vm clauseSize fuel stack' seen' cur' acc idx'

/-- Fuel that strictly dominates the loop's decreasing measure, so the loop
always terminates within it (proved below). -/
def permFuel (n r0len : Nat) : Nat :=
  (n + 1) * ((2 * r0len + 1) * (n + 2) ^ (n + 1)) + 1

/-- `extractPermutations` (MinimiseProgramTransformer.cpp, lines 47-135).
On the empty matrix the C++ reads `validMoves[0]` out of bounds
(`validMoves` is empty); this undefined access is modelled as `none`. -/
def extractPermutations (m : List (List Nat)) : Option (List (List Nat)) :=
  let clauseSize := m.length
  let validMoves := buildValidMoves m
  match validMoves with
  | [] => none
  | row0 :: _ =>
    permLoop validMoves clauseSize (permFuel clauseSize row0.length)
      [row0] (List.replicate clauseSize 0) [] [] 0

/-!  ## Compatibility matrix (`isValidMove`, matrix construction)  -/

/-- `isValidMove` (lines 142-162): can the atom at `leftIdx` of `left`
potentially be matched with the atom at `rightIdx` of `right`?  Index 0 is
the head, index `k ≥ 1` the `k`-th body literal.  The C++ `assert`s that the
body literals are atoms; an assertion failure (aborting) is modelled as
`false`, and is unreachable from the oracle because the admissibility
precheck has already required all body literals to be atoms. -/
def isValidMove (left : Clause) (leftIdx : Nat) (right : Clause) (rightIdx : Nat) :
    Bool :=
  if leftIdx = 0 && rightIdx = 0 then
    left.headName == right.headName
  else if leftIdx = 0 || rightIdx = 0 then
    false
  else
    match left.body.getD (leftIdx - 1) (.constraintLit 0 []),
        right.body.getD (rightIdx - 1) (.constraintLit 0 []) with
    | .atom ln _, .atom rn _ => ln == rn
    | _, _ => false

/-- The `(n+1) × (n+1)` permutation matrix of `areBijectivelyEquivalent`
(lines 302-318): allocated zero-filled, then `permutationMatrix[0][0] = 1`
is set unconditionally, and entries with `i, j ≥ 1` are set through
`isValidMove`.  (`isValidMove` is never consulted at `(0,0)`.) -/
def permMatrix (left right : Clause) : List (List Nat) :=
  let size := left.body.length + 1
  (List.range size).map (fun i =>
    (List.range size).map (fun j =>
      if i = 0 ∧ j = 0 then 1
      else if 1 ≤ i ∧ 1 ≤ j ∧ isValidMove left i right j then 1
      else 0))

/-!  ## Variable mapping checker (`isValidPermutation`)  -/

/-- The inverse-permutation construction of `isValidPermutation`
(lines 184-187): `reorderedPermutation[bodyPermutation[i]] = i` over a
zero-initialised vector.  `List.set` ignores out-of-range writes (the C++
would be out of bounds there; all call sites use genuine permutations). -/
def invertPerm (bp : List Nat) : List Nat :=
  (List.range bp.length).foldl (fun acc i => acc.set (bp.getD i 0) i)
    (List.replicate bp.length 0)

/-- Modelled from the spec: `reorderAtoms` (ast/AstUtils.h, not in src).
Per the convention comment at lines 179-183 of the pass,
`newOrder[i] == j` means position `i` of the result holds body atom `j` of
the input. -/
def reorderAtoms (c : Clause) (newOrder : List Nat) : Clause :=
  { c with body := newOrder.map (fun j => c.body.getD j (.atom "" [])) }

/-- The inner argument loop of `isValidPermutation` (lines 216-245),
walking the argument list of one matched atom pair.  `valid` is the running
`validMapping` flag, `φ` the variable map (`std::map` with `operator[]`
defaulting to the empty string, modelled as a total function defaulting to
`""`).  Result `none` models the out-of-bounds read `rightArgs[j]` when the
right atom has fewer arguments than the left one (undefined behaviour in the
C++); `some (v, φ')` is normal completion or an early `break` with the final
flag `v` and map `φ'`.  Note the faithful quirks of the source: the
constant branches reset `validMapping` to `true`, and the nil branch can set
it to `false` without breaking. -/
def matchArgs : List Arg → List Arg → Bool → (String → String) →
    Option (Bool × (String → String))
  | [], _, valid, φ => some (valid, φ)
  | _ :: _, [], _, _ => none
  | l :: ls, r :: rs, valid, φ =>
    match l, r with
    | .var u, .var v =>
      -- both variables: their names must match up through the clause
      if φ u = "" then matchArgs ls rs valid (fun x => if x = u then v else φ x)
      else if φ u ≠ v then some (false, φ)   -- inconsistent: break
      else matchArgs ls rs valid φ
    | l, r =>
      if (match l, r with | .strConst a, .strConst b => a == b | _, _ => false) then
        matchArgs ls rs true φ                -- castEq<AstStringConstant>
      else if (match l, r with
          | .numConst k a, .numConst k' b => k == k' && a == b
          | _, _ => false) then
        matchArgs ls rs true φ                -- castEq<AstNumericConstant>
      else if l matches .nilConst then
        -- validMapping = (right is nil); note: no break here
        matchArgs ls rs (r matches .nilConst) φ
      else
        some (false, φ)                       -- not the same type: break

/-- The outer atom loop of `isValidPermutation` (lines 209-246):
`for (i ...; i < size && validMapping; i++)`.  The left list drives the
iteration; a left list longer than the right one reads `rightAtoms[i]` out
of bounds (`none`), and the `assert(... && "expected atom")` on non-atom
entries (aborting) is likewise modelled as `none`. -/
def matchAtoms : List Literal → List Literal → Bool → (String → String) →
    Option (Bool × (String → String))
  | [], _, valid, φ => some (valid, φ)
  | _ :: _, [], _, _ => none
  | la :: ls, ra :: rs, valid, φ =>
    if valid = false then some (false, φ)
    else
      match la, ra with
      | .atom _ largs, .atom _ rargs =>
        match matchArgs largs rargs valid φ with
        | none => none
        | some (valid', φ') => matchAtoms ls rs valid' φ'
      | _, _ => none

/-- `isValidPermutation` (lines 167-250): reorder a clone of `left` by the
body part of `permutation`, then check whether a consistent variable mapping
exists position by position (body atoms first, then the head, matching the
C++ `push_back` of the heads after the bodies).  Returns the final
`validMapping` flag together with the final variable map, or `none` on
undefined behaviour. -/
def isValidPermutation (left right : Clause) (permutation : List Nat) :
    Option (Bool × (String → String)) :=
  let bodyPermutation := (permutation.drop 1).map (· - 1)
  let reorderedPermutation := invertPerm bodyPermutation
  let reorderedLeft := reorderAtoms left reorderedPermutation
  matchAtoms (reorderedLeft.body ++ [reorderedLeft.headAtom])
    (right.body ++ [right.headAtom]) true (fun _ => "")

/-!  ## Bijective equivalence oracle (`areBijectivelyEquivalent`)  -/

/-- The `isValidClause` lambda of `areBijectivelyEquivalent`
(lines 257-277): all body literals are atoms, and every argument in the
clause is a variable or a constant. -/
def isValidClause (c : Clause) : Bool :=
  c.body.all Literal.isAtom && c.allArgs.all (fun a => a.isVar || a.isConst)

/-- The admissibility precheck of `areBijectivelyEquivalent`
(lines 279-300): both clauses valid, equal body lengths, equal head
arities, equal numbers of distinct variable names. -/
def precheck (left right : Clause) : Bool :=
  isValidClause left && isValidClause right
    && left.body.length == right.body.length
    && left.headArgs.length == right.headArgs.length
    && left.varSet.card == right.varSet.card

/-- The permutation loop at the end of `areBijectivelyEquivalent`
(lines 321-328): return `true` at the first permutation with a valid
variable mapping, `false` after exhausting all of them.  `none` (undefined
behaviour inside `isValidPermutation`) is propagated. -/
def firstValid (left right : Clause) : List (List Nat) → Option Bool
  | [] => some false
  | p :: ps =>
    match isValidPermutation left right p with
    | none => none
    | some (true, _) => some true
    | some (false, _) => firstValid left right ps

/-- `areBijectivelyEquivalent` (lines 255-331). -/
def areBijectivelyEquivalent (left right : Clause) : Option Bool :=
  if ¬ (isValidClause left && isValidClause right) then some false
  else if left.body.length ≠ right.body.length then some false
  else if left.headArgs.length ≠ right.headArgs.length then some false
  else if left.varSet.card ≠ right.varSet.card then some false
  else
    match extractPermutations (permMatrix left right) with
    | none => none
    | some permutations => firstValid left right permutations

/-!  ## Auxiliary definitions used by the verification

`dfsRow`/`dfs` are a direct structural-recursion rendering of the search
that the `extractPermutations` stack loop performs; the loop is proved equal
to them below.  `stackCostTop` is the decreasing measure of the loop. -/

/-- One row of the DFS: try each remaining possibility `j` in order, skip it
if already used in `cur`, otherwise descend via `next`. -/
def dfsRow (next : List Nat → List (List Nat)) (cur : List Nat) :
    List Nat → List (List Nat)
  | [] => []
  | j :: rest =>
    (if j ∈ cur then [] else next (cur ++ [j])) ++ dfsRow next cur rest

/-- The DFS from a partial assignment `cur` with `rem` positions left to
fill, choosing position `cur.length` from `vm.getD cur.length []`. -/
def dfs (vm : List (List Nat)) : Nat → List Nat → List (List Nat)
  | 0, cur => [cur]
  | rem + 1, cur => dfsRow (dfs vm rem) cur (vm.getD cur.length [])

/-- The output still to be produced by the backtracking frames below the
current one: frame `t` (a suffix of a `validMoves` row) is resumed with the
current prefix shortened by one. -/
def semFrames (vm : List (List Nat)) (n : Nat) :
    List (List Nat) → List Nat → List (List Nat)
  | [], _ => []
  | t :: fs, cur =>
    dfsRow (dfs vm (n - cur.length)) cur.dropLast t ++ semFrames vm n fs cur.dropLast

/-- The complete remaining output of a loop state. -/
def semState (vm : List (List Nat)) (n : Nat) (stack : List (List Nat))
    (cur : List Nat) (idx : Nat) : List (List Nat) :=
  if idx = n then cur :: semFrames vm n stack cur
  else
    match stack with
    | [] => []
    | t :: fs => dfsRow (dfs vm (n - idx - 1)) cur t ++ semFrames vm n fs cur

/-- Weighted cost of the todo stack (head = top): the top entry has weight
`W ^ k`, entries below have geometrically larger weights. -/
def stackCostTop (W : Nat) : List (List Nat) → Nat → Nat
  | [], _ => 0
  | e :: rest, k => (2 * e.length + 1) * W ^ k + stackCostTop W rest (k + 1)

/-- The decreasing measure of the `extractPermutations` loop. -/
def loopMeasure (n : Nat) (stack : List (List Nat)) (idx : Nat) : Nat :=
  (n + 1) * stackCostTop (n + 2) stack (n + 2 - stack.length) + idx

/-- Replace the head relation name of a clause, keeping everything else. -/
def Clause.setHeadName (c : Clause) (n : QName) : Clause :=
  { c with headName := n }

/-- Atoms that share a qualified name share an arity, across the bodies of
two clauses.  (`isValidPermutation` walks the argument lists of name-matched
atoms in lockstep, reading the right list at the left list's indices.) -/
def litArityOk : Literal → Literal → Bool
  | .atom n as, .atom n' as' => n != n' || as.length == as'.length
  | _, _ => true

/-- Body atoms of `left` and `right` that share a qualified name share an
arity. -/
def bodyAritiesOk (left right : Clause) : Bool :=
  left.body.all (fun la => right.body.all (fun ra => litArityOk la ra))

/-- No nil constant occurs among the clause's arguments. -/
def Clause.noNil (c : Clause) : Bool :=
  c.allArgs.all (fun a => !(a matches .nilConst))

/-- Every variable of the clause has a non-empty name (the empty string is
the "unassigned" sentinel of the variable map in `isValidPermutation`). -/
def Clause.varNamesNonempty (c : Clause) : Bool :=
  c.varNames.all (fun v => v ≠ "")

/-!  ## Program, translation unit, and AST helper interfaces

All modelled from the spec's data model and external-interface sections
(`AstProgram`, `AstTranslationUnit`, `IOType`, not in src). -/

/-- Modelled from the spec: a program is an ordered sequence of relations
(identified by qualified name) and an ordered sequence of clauses. -/
structure Program where
  relations : List QName
  clauses : List Clause
deriving DecidableEq

/-- Modelled from the spec: a translation unit owns a program and exposes the
I/O-kind analysis oracle `isIO`, treated as a read-only collaborator. -/
structure TranslationUnit where
  program : Program
  io : QName → Bool

/-- Modelled from the spec: `getClauses(program, rel)` — the clauses of a
relation, in program order (a clause belongs to the relation its head atom
names). -/
def getClauses (p : Program) (rel : QName) : List Clause :=
  p.clauses.filter (fun c => c.headName == rel)

/-- Modelled from the spec: `AstProgram::removeClause` removes a clause by
structural match (spec section 6: "remove a clause (by structural match)");
the first structurally equal clause is erased, if any. -/
def removeClauseFromList (cs : List Clause) (c : Clause) : List Clause :=
  match cs with
  | [] => []
  | x :: xs => if x = c then xs else x :: removeClauseFromList xs c

/-- `program.removeClause(clause)`. -/
def Program.removeClause (p : Program) (c : Clause) : Program :=
  { p with clauses := removeClauseFromList p.clauses c }

/-- `program.addClause(clause)`: appends. -/
def Program.addClause (p : Program) (c : Clause) : Program :=
  { p with clauses := p.clauses ++ [c] }

/-- Modelled from the spec: `AstProgram::removeRelation(name)` removes the
relation declaration of that name (its clauses are removed separately by the
pass, per the spec's lifecycle invariant). -/
def Program.removeRelation (p : Program) (n : QName) : Program :=
  { p with relations := p.relations.filter (fun r => r ≠ n) }

/-!  ## Body deduplicator (`reduceClauseBodies`)  -/

/-- The `redundantPositions` set of `reduceClauseBodies` (lines 508-516):
for each position `i`, scan `j < i` in increasing order; at the first `j`
with `*bodyLiterals[i] == *bodyLiterals[j]`, insert `j` and break. -/
def redundantPositions (bodyLiterals : List Literal) : Finset Nat :=
  (List.range bodyLiterals.length).foldl (fun s i =>
    match (List.range i).find? (fun j =>
        decide (bodyLiterals.getD i (.constraintLit 0 []) =
          bodyLiterals.getD j (.constraintLit 0 []))) with
    | some j => insert j s
    | none => s) ∅

/-- The minimised clause built at lines 519-525: same head, and the body
literals at positions not in `redundantPositions`, in order. -/
def minimiseClause (c : Clause) : Clause :=
  { headName := c.headName, headArgs := c.headArgs,
    body := ((List.range c.body.length).filter
        (fun i => decide (i ∉ redundantPositions c.body))).map
      (fun i => c.body.getD i (.constraintLit 0 [])) }

/-- `reduceClauseBodies` (lines 501-539).  The C++ gathers clones of the
affected clauses and their minimised versions into `std::set`s of owning
pointers (iterated in unspecified pointer order); we process them in program
order, which fixes one of the admissible orders. -/
def reduceClauseBodies (tu : TranslationUnit) : TranslationUnit × Bool :=
  let affected := tu.program.clauses.filter
    (fun c => !(redundantPositions c.body == ∅))
  let clausesToRemove := affected
  let clausesToAdd := affected.map minimiseClause
  let prog := clausesToRemove.foldl Program.removeClause tu.program
  let prog := clausesToAdd.foldl Program.addClause prog
  ({ tu with program := prog }, !clausesToAdd.isEmpty)

/-!  ## Self-implication filter (`removeRedundantClauses`)  -/

/-- The `isRedundant` lambda of `removeRedundantClauses` (lines 474-482):
the head is structurally equal to some body literal. -/
def isRedundant (c : Clause) : Bool :=
  c.body.any (fun lit => decide (c.headAtom = lit))

/-- `removeRedundantClauses` (lines 472-495). -/
def removeRedundantClauses (tu : TranslationUnit) : TranslationUnit × Bool :=
  let clausesToRemove := tu.program.clauses.filter isRedundant
  let prog := clausesToRemove.foldl Program.removeClause tu.program
  ({ tu with program := prog }, !clausesToRemove.isEmpty)

/-!  ## Local equivalence reducer (`reduceLocallyEquivalentClauses`)  -/

/-- Scan the representatives of the already-formed equivalence classes, in
creation order, for the first one bijectively equivalent to `c`
(lines 352-362).  `none` propagates undefined behaviour from the oracle. -/
def findEquivClass (c : Clause) : List Clause → Option Bool
  | [] => some false
  | rep :: reps =>
    match areBijectivelyEquivalent rep c with
    | none => none
    | some true => some true
    | some false => findEquivClass c reps

/-- The per-relation classification loop (lines 347-369): clauses of one
relation, in order, are matched against the representative of each existing
class; a match marks the clause for deletion, otherwise it founds a new
class.  Returns the clauses marked for deletion. -/
def collectDeletions : List Clause → List Clause → List Clause →
    Option (List Clause)
  | [], _, dels => some dels
  | c :: cs, reps, dels =>
    match findEquivClass c reps with
    | none => none
    | some true => collectDeletions cs reps (dels ++ [c])
    | some false => collectDeletions cs (reps ++ [c]) dels

/-- The relation loop of `reduceLocallyEquivalentClauses` (lines 346-370),
accumulating `clausesToDelete` over all relations in program order. -/
def collectAllDeletions (prog : Program) : List QName → Option (List Clause)
  | [] => some []
  | rel :: rels =>
    match collectDeletions (getClauses prog rel) [] [] with
    | none => none
    | some dels => (collectAllDeletions prog rels).map (fun rest => dels ++ rest)

/-- `reduceLocallyEquivalentClauses` (lines 339-379). -/
def reduceLocallyEquivalentClauses (tu : TranslationUnit) :
    Option (TranslationUnit × Bool) :=
  match collectAllDeletions tu.program tu.program.relations with
  | none => none
  | some dels =>
    some ({ tu with program := dels.foldl Program.removeClause tu.program },
      !dels.isEmpty)

/-!  ## Singleton relation unifier (`reduceSingletonRelations`)  -/

/-- The singleton collection loop (lines 394-400): the sole clause of every
non-I/O relation with exactly one clause, in relation order. -/
def singletonClauses (tu : TranslationUnit) : List Clause :=
  tu.program.relations.filterMap (fun rel =>
    if !tu.io rel && (getClauses tu.program rel).length == 1 then
      (getClauses tu.program rel).head?
    else none)

/-- `std::set<AstClause*>::insert`: no effect if already present. -/
def insertClause (red : List Clause) (c : Clause) : List Clause :=
  if c ∈ red then red else red ++ [c]

/-- `std::map::insert(std::pair(k, v))`: no effect if the key is already
present. -/
def insertCanon (canon : List (QName × QName)) (kv : QName × QName) :
    List (QName × QName) :=
  if canon.any (fun p => p.1 == kv.1) then canon else canon ++ [kv]

/-- The inner pair loop (lines 416-427): `first` against every later
singleton clause `second`; an equivalent pair marks `second` redundant and
records `name(second) → name(first)`. -/
def singletonPairsInner (first : Clause) : List Clause → List Clause →
    List (QName × QName) → Option (List Clause × List (QName × QName))
  | [], red, canon => some (red, canon)
  | second :: rest, red, canon =>
    match areBijectivelyEquivalent first second with
    | none => none
    | some true =>
      singletonPairsInner first rest (insertClause red second)
        (insertCanon canon (second.headName, first.headName))
    | some false => singletonPairsInner first rest red canon

/-- The outer pair loop (lines 409-427): each singleton clause in turn is
the `first` of the inner loop, skipped if already found redundant. -/
def singletonPairsOuter : List Clause → List Clause → List (QName × QName) →
    Option (List Clause × List (QName × QName))
  | [], red, canon => some (red, canon)
  | first :: rest, red, canon =>
    if first ∈ red then singletonPairsOuter rest red canon
    else
      match singletonPairsInner first rest red canon with
      | none => none
      | some (red', canon') => singletonPairsOuter rest red' canon'

/-- The analysis part of `reduceSingletonRelations`: the redundant singleton
clauses and the canonical-name map. -/
def singletonAnalysis (tu : TranslationUnit) :
    Option (List Clause × List (QName × QName)) :=
  singletonPairsOuter (singletonClauses tu) [] []

/-- `canonicalName.find(name)` of the rewriting step. -/
def canonLookup (canon : List (QName × QName)) (n : QName) : Option QName :=
  (canon.find? (fun p => p.1 == n)).map (fun p => p.2)

/-- The `replaceRedundantRelations` node mapper (lines 439-460) on one
literal: every `AstAtom` node (including the atom inside a negation) whose
qualified name is a key of the canonical map gets the canonical name. -/
def renameLiteral (canon : List (QName × QName)) : Literal → Literal
  | .atom n as => .atom ((canonLookup canon n).getD n) as
  | .negation n as => .negation ((canonLookup canon n).getD n) as
  | .constraintLit op as => .constraintLit op as

/-- The node mapper on one clause: the head is itself an `AstAtom` node, so
it is renamed as well. -/
def renameClause (canon : List (QName × QName)) (c : Clause) : Clause :=
  { headName := (canonLookup canon c.headName).getD c.headName,
    headArgs := c.headArgs,
    body := c.body.map (renameLiteral canon) }

/-- `reduceSingletonRelations` (lines 387-466): collect singleton clauses,
mark redundant ones pairwise, remove each redundant clause and its relation
declaration (the C++ iterates the redundant set in unspecified pointer
order; removals of distinct relations' clauses commute, and we fix list
order), then rewrite every atom through the canonical map.  Changed iff any
mapping was recorded. -/
def reduceSingletonRelations (tu : TranslationUnit) :
    Option (TranslationUnit × Bool) :=
  match singletonAnalysis tu with
  | none => none
  | some (red, canon) =>
    let prog := red.foldl
      (fun p c => (p.removeClause c).removeRelation c.headName) tu.program
    let prog := { prog with clauses := prog.clauses.map (renameClause canon) }
    some ({ tu with program := prog }, !canon.isEmpty)

/-!  ## Minimiser driver (`MinimiseProgramTransformer::transform`)  -/

/-- `MinimiseProgramTransformer::transform` (lines 541-548): the four
sub-passes, once each, in fixed order; `changed |= pass(...)` evaluates
every pass unconditionally and ors the flags.  Undefined behaviour inside
the oracle-using passes propagates as `none`. -/
def transform (tu : TranslationUnit) : Option (TranslationUnit × Bool) :=
  let r1 := reduceClauseBodies tu
  let r2 := removeRedundantClauses r1.1
  match reduceLocallyEquivalentClauses r2.1 with
  | none => none
  | some r3 =>
    match reduceSingletonRelations r3.1 with
    | none => none
    | some r4 => some (r4.1, r1.2 || r2.2 || r3.2 || r4.2)

/-- One matched argument pair, as the variable-mapping walk accepts it with
final map `φ`: both variables related by `φ`, or equal constants of equal
kind.  (Nil pairs are excluded here because the amended claims assume
nil-free clauses.) -/
def pairOK (φ : String → String) : Arg × Arg → Prop
  | (Arg.var u, Arg.var w) => φ u = w
  | (Arg.strConst s, Arg.strConst s') => s = s'
  | (Arg.numConst k x, Arg.numConst k' x') => k = k' ∧ x = x'
  | _ => False

/-- A concrete translation unit used by witnesses: non-I/O singleton
relations `S` and `T` with bijectively equivalent sole clauses, and an I/O
relation `io1`. -/
def exampleTU : TranslationUnit :=
  ⟨⟨["S", "T", "io1", "P"],
    [⟨"S", [.var "x"], [.atom "P" [.var "x"]]⟩,
     ⟨"T", [.var "x"], [.atom "P" [.var "x"]]⟩,
     ⟨"io1", [.var "x"], [.atom "P" [.var "x"]]⟩]⟩,
   fun n => n == "io1"⟩

/-- What the Singleton Relation Unifier produces on `exampleTU`: `T` is
merged into `S`; `io1` is untouched. -/
def exampleTUAfter : TranslationUnit :=
  ⟨⟨["S", "io1", "P"],
    [⟨"S", [.var "x"], [.atom "P" [.var "x"]]⟩,
     ⟨"io1", [.var "x"], [.atom "P" [.var "x"]]⟩]⟩,
   fun n => n == "io1"⟩

/-!  # Theorems  -/

/-!  ## List helper lemmas  -/

theorem getD_set_self (l : List Nat) {i : Nat} (h : i < l.length) (x d : Nat) :
    (l.set i x).getD i d = x := by
  rw [List.getD_eq_getElem _ d (by simpa using h)]
  simp [List.getElem_set_self]

theorem getD_set_ne (l : List Nat) {i j : Nat} (hij : i ≠ j) (x d : Nat) :
    (l.set i x).getD j d = l.getD j d := by
  simp [List.getD, List.getElem?_set_ne hij]

theorem getD_append_last (l : List Nat) (a d : Nat) :
    (l ++ [a]).getD l.length d = a := by
  simp [List.getD]

theorem getD_append_lt (l : List Nat) {k : Nat} (h : k < l.length) (a d : Nat) :
    (l ++ [a]).getD k d = l.getD k d := by
  simp [List.getD, List.getElem?_append_left h]

theorem getD_mem (l : List Nat) {k : Nat} (h : k < l.length) (d : Nat) :
    l.getD k d ∈ l := by
  rw [List.getD_eq_getElem l d h]
  exact List.getElem_mem h

theorem take_succ_getD (l : List Nat) {k : Nat} (h : k < l.length) :
    l.take (k + 1) = l.take k ++ [l.getD k 0] := by
  rw [List.take_succ]
  congr 1
  rw [List.getElem?_eq_getElem h]
  simp [List.getD, List.getElem?_eq_getElem h]

theorem getD_map_range {α : Type} (f : Nat → α) {n i : Nat} (h : i < n) (d : α) :
    ((List.range n).map f).getD i d = f i := by
  rw [List.getD_eq_getElem _ d (by simpa using h)]
  simp

theorem nodup_iff_getD_not_mem_take (l : List Nat) :
    l.Nodup ↔ ∀ k, k < l.length → l.getD k 0 ∉ l.take k := by
  induction l with
  | nil => simp
  | cons x xs ih =>
    constructor
    · intro h k hk
      rcases List.nodup_cons.mp h with ⟨hx, hxs⟩
      match k with
      | 0 => simp
      | k + 1 =>
        have hk' : k < xs.length := by simpa using hk
        have : xs.getD k 0 ∈ xs := getD_mem xs hk' 0
        simp only [List.getD_cons_succ, List.take_succ_cons, List.mem_cons]
        push_neg
        refine ⟨fun he => hx (he ▸ this), ?_⟩
        exact (ih.mp hxs) k hk'
    · intro h
      rw [List.nodup_cons]
      constructor
      · intro hx
        rcases List.mem_iff_getElem.mp hx with ⟨k, hk, hget⟩
        have := h (k + 1) (by simpa using Nat.succ_lt_succ hk)
        simp only [List.getD_cons_succ, List.take_succ_cons, List.mem_cons] at this
        push_neg at this
        exact this.1 (by rw [List.getD_eq_getElem _ _ hk, hget])
      · apply (ih).mpr
        intro k hk
        have := h (k + 1) (by simpa using Nat.succ_lt_succ hk)
        simp only [List.getD_cons_succ, List.take_succ_cons, List.mem_cons] at this
        push_neg at this
        exact this.2

theorem perm_range_of_nodup (p : List Nat) (n : Nat) (h1 : p.Nodup)
    (h2 : p.length = n) (h3 : ∀ x ∈ p, x < n) : p.Perm (List.range n) := by
  apply List.perm_of_nodup_nodup_toFinset_eq h1 (List.nodup_range n)
  have hr : (List.range n).toFinset = Finset.range n := by ext x; simp
  apply Finset.eq_of_subset_of_card_le
  · intro x hx
    rw [List.mem_toFinset] at hx
    rw [hr, Finset.mem_range]
    exact h3 x hx
  · rw [hr, Finset.card_range, List.card_toFinset, h1.dedup, h2]

/-!  ## The DFS reference semantics of the permutation enumerator  -/

theorem mem_dfsRow (next : List Nat → List (List Nat)) (cur : List Nat)
    (poss : List Nat) (p : List Nat) :
    p ∈ dfsRow next cur poss ↔ ∃ j ∈ poss, j ∉ cur ∧ p ∈ next (cur ++ [j]) := by
  induction poss with
  | nil => simp [dfsRow]
  | cons j rest ih =>
    simp only [dfsRow, List.mem_append, ih, List.mem_cons]
    by_cases hj : j ∈ cur
    · simp only [if_pos hj, List.not_mem_nil, false_or]
      constructor
      · rintro ⟨j', hj', hnot, hp⟩
        exact ⟨j', Or.inr hj', hnot, hp⟩
      · rintro ⟨j', hj' | hj', hnot, hp⟩
        · exact absurd (hj' ▸ hj) hnot
        · exact ⟨j', hj', hnot, hp⟩
    · simp only [if_neg hj]
      constructor
      · rintro (hp | ⟨j', hj', hnot, hp⟩)
        · exact ⟨j, Or.inl rfl, hj, hp⟩
        · exact ⟨j', Or.inr hj', hnot, hp⟩
      · rintro ⟨j', hj' | hj', hnot, hp⟩
        · exact Or.inl (hj' ▸ hp)
        · exact Or.inr ⟨j', hj', hnot, hp⟩

theorem mem_dfs (vm : List (List Nat)) :
    ∀ (rem : Nat) (cur p : List Nat),
    p ∈ dfs vm rem cur ↔
      (p.take cur.length = cur ∧ p.length = cur.length + rem ∧
       ∀ k, cur.length ≤ k → k < p.length →
         p.getD k 0 ∈ vm.getD k [] ∧ p.getD k 0 ∉ p.take k) := by
  intro rem
  induction rem with
  | zero =>
    intro cur p
    simp only [dfs, List.mem_singleton, Nat.add_zero]
    constructor
    · rintro rfl
      exact ⟨List.take_length _, rfl, fun k h1 h2 => absurd h2 (by omega)⟩
    · rintro ⟨h1, h2, -⟩
      rw [← h1, ← h2, List.take_length]
  | succ rem ih =>
    intro cur p
    rw [dfs, mem_dfsRow]
    constructor
    · rintro ⟨j, hjmem, hjcur, hp⟩
      rcases (ih (cur ++ [j]) p).mp hp with ⟨h1, h2, h3⟩
      rw [List.length_append, List.length_singleton] at h1 h2
      have hlen : cur.length < p.length := by omega
      have htake : p.take (cur.length + 1)
          = p.take cur.length ++ [p.getD cur.length 0] := take_succ_getD p hlen
      rw [htake] at h1
      have hlentake : (p.take cur.length).length = cur.length := by
        rw [List.length_take]
        omega
      obtain ⟨ha, hb⟩ := List.append_inj h1 hlentake
      have hgd : p.getD cur.length 0 = j := by
        simpa using hb
      refine ⟨ha, by omega, ?_⟩
      intro k hk1 hk2
      rcases Nat.eq_or_lt_of_le hk1 with heq | hlt
      · subst heq
        rw [hgd, ha]
        exact ⟨hjmem, hjcur⟩
      · exact h3 k (by simp; omega) hk2
    · rintro ⟨h1, h2, h3⟩
      have hlen : cur.length < p.length := by omega
      have hj2 := (h3 cur.length (le_refl _) hlen).2
      rw [h1] at hj2
      refine ⟨p.getD cur.length 0, (h3 cur.length (le_refl _) hlen).1, hj2, ?_⟩
      rw [ih]
      refine ⟨?_, by simp; omega, ?_⟩
      · rw [List.length_append, List.length_singleton, take_succ_getD p hlen, h1]
      · intro k hk1 hk2
        rw [List.length_append, List.length_singleton] at hk1
        exact h3 k (by omega) hk2

/-!  ## Correctness of the permutation enumerator's stack loop  -/

theorem length_buildValidMoves (m : List (List Nat)) :
    (buildValidMoves m).length = m.length := by
  simp [buildValidMoves]

theorem getD_buildValidMoves (m : List (List Nat)) {i : Nat} (hi : i < m.length) :
    (buildValidMoves m).getD i []
      = (List.range m.length).filter (fun j => (m.getD i []).getD j 0 == 1) := by
  unfold buildValidMoves
  exact getD_map_range _ hi []

theorem mem_validMoves_iff (m : List (List Nat)) {i : Nat} (hi : i < m.length)
    (j : Nat) :
    j ∈ (buildValidMoves m).getD i []
      ↔ j < m.length ∧ (m.getD i []).getD j 0 = 1 := by
  rw [getD_buildValidMoves m hi, List.mem_filter, List.mem_range]
  simp only [beq_iff_eq]

theorem buildValidMoves_row_bounds (m : List (List Nat)) :
    ∀ r ∈ buildValidMoves m, r.length ≤ m.length ∧ ∀ x ∈ r, x < m.length := by
  intro r hr
  unfold buildValidMoves at hr
  rw [List.mem_map] at hr
  obtain ⟨i, _, rfl⟩ := hr
  refine ⟨le_trans (List.length_filter_le _ _) (by simp), ?_⟩
  intro x hx
  rw [List.mem_filter] at hx
  exact List.mem_range.mp hx.1

theorem stackCostTop_cons (W : Nat) (e : List Nat) (rest : List (List Nat))
    (k : Nat) :
    stackCostTop W (e :: rest) k
      = (2 * e.length + 1) * W ^ k + stackCostTop W rest (k + 1) := rfl

theorem measure_lt_of_cost_lt (n idx idx' : Nat) (s s' : List (List Nat))
    (hidx' : idx' ≤ n)
    (h : stackCostTop (n+2) s' (n + 2 - s'.length)
      < stackCostTop (n+2) s (n + 2 - s.length)) :
    loopMeasure n s' idx' < loopMeasure n s idx := by
  unfold loopMeasure
  have h1 : (n+1) * (stackCostTop (n+2) s' (n + 2 - s'.length) + 1)
      ≤ (n+1) * stackCostTop (n+2) s (n + 2 - s.length) := Nat.mul_le_mul_left _ h
  rw [Nat.mul_add, Nat.mul_one] at h1
  omega

theorem cost_pop_lt (n : Nat) (rest : List (List Nat)) (hlen : rest.length ≤ n + 1) :
    stackCostTop (n+2) rest (n + 2 - rest.length)
      < stackCostTop (n+2) ([] :: rest) (n + 2 - ([] :: rest).length) := by
  rw [show (([] : List Nat) :: rest).length = rest.length + 1 from rfl,
    stackCostTop_cons]
  rw [show n + 2 - (rest.length + 1) + 1 = n + 2 - rest.length from by omega]
  have hpos : 1 ≤ (n+2) ^ (n + 2 - (rest.length + 1)) :=
    Nat.pos_pow_of_pos _ (by omega)
  have hco : (2 * ([] : List Nat).length + 1) * (n+2) ^ (n + 2 - (rest.length + 1))
      = (n+2) ^ (n + 2 - (rest.length + 1)) := by
    simp
  rw [hco]
  omega

theorem cost_tail_lt (n : Nat) (j : Nat) (poss : List Nat)
    (rest : List (List Nat)) :
    stackCostTop (n+2) (poss :: rest) (n + 2 - (poss :: rest).length)
      < stackCostTop (n+2) ((j :: poss) :: rest)
          (n + 2 - ((j :: poss) :: rest).length) := by
  rw [stackCostTop_cons, stackCostTop_cons]
  simp only [List.length_cons]
  have hpos : 0 < (n+2) ^ (n + 2 - (rest.length + 1)) :=
    Nat.pos_pow_of_pos _ (by omega)
  have hco : (2 * (poss.length + 1) + 1) * (n+2) ^ (n + 2 - (rest.length + 1))
      = (2 * poss.length + 1) * (n+2) ^ (n + 2 - (rest.length + 1))
        + 2 * (n+2) ^ (n + 2 - (rest.length + 1)) := by
    rw [← Nat.add_mul]
    congr 1
  rw [hco]
  omega

theorem cost_push_lt (n : Nat) (j : Nat) (poss newRow : List Nat)
    (rest : List (List Nat)) (hrowlen : newRow.length ≤ n + 1)
    (hlen : rest.length + 2 ≤ n + 1) :
    stackCostTop (n+2) (newRow :: poss :: rest)
        (n + 2 - (newRow :: poss :: rest).length)
      < stackCostTop (n+2) ((j :: poss) :: rest)
          (n + 2 - ((j :: poss) :: rest).length) := by
  rw [stackCostTop_cons, stackCostTop_cons, stackCostTop_cons]
  simp only [List.length_cons]
  rw [show n + 2 - (rest.length + 1 + 1) + 1 = n + 2 - (rest.length + 1) from
    by omega]
  rw [show n + 2 - (rest.length + 1) + 1 = n + 2 - rest.length from by omega]
  have hco : (2 * (poss.length + 1) + 1) * (n+2) ^ (n + 2 - (rest.length + 1))
      = (2 * poss.length + 1) * (n+2) ^ (n + 2 - (rest.length + 1))
        + 2 * (n+2) ^ (n + 2 - (rest.length + 1)) := by
    rw [← Nat.add_mul]
    congr 1
  rw [hco]
  have hkey : (2 * newRow.length + 1) * (n+2) ^ (n + 2 - (rest.length + 1 + 1))
      < 2 * (n+2) ^ (n + 2 - (rest.length + 1)) := by
    rw [show n + 2 - (rest.length + 1) = n + 2 - (rest.length + 1 + 1) + 1 from
      by omega, pow_succ]
    calc (2 * newRow.length + 1) * (n+2) ^ (n + 2 - (rest.length + 1 + 1))
        < 2 * (n+2) * (n+2) ^ (n + 2 - (rest.length + 1 + 1)) :=
          Nat.mul_lt_mul_of_lt_of_le (by omega) (le_refl _)
            (Nat.pos_pow_of_pos _ (by omega))
      _ = 2 * ((n+2) ^ (n + 2 - (rest.length + 1 + 1)) * (n+2)) := by ring
  omega

theorem permLoop_spec (vm : List (List Nat)) (n : Nat) (hn : 1 ≤ n)
    (hrow : ∀ r ∈ vm, r.length ≤ n) (hval : ∀ r ∈ vm, ∀ x ∈ r, x < n) :
    ∀ (fuel : Nat) (stack : List (List Nat)) (seen cur : List Nat)
      (acc : List (List Nat)) (idx : Nat),
      idx = cur.length → idx ≤ n →
      stack.length = (if idx = n then n else idx + 1) →
      cur.Nodup → (∀ v ∈ cur, v < n) →
      (∀ e ∈ stack, e.length ≤ n ∧ ∀ x ∈ e, x < n) →
      seen.length = n →
      (∀ v, v < n → ((seen.getD v 0 ≠ 0) ↔ v ∈ cur)) →
      loopMeasure n stack idx < fuel →
      permLoop vm n fuel stack seen cur acc idx
        = some (acc ++ semState vm n stack cur idx) := by
  intro fuel
  induction fuel with
  | zero =>
    intro stack seen cur acc idx _ _ _ _ _ _ _ _ hm
    omega
  | succ fuel ih =>
    intro stack seen cur acc idx hidx hile hslen hnd hvcur hstk hseenlen hchar hm
    cases stack with
    | nil =>
      exfalso
      rw [List.length_nil] at hslen
      split at hslen <;> omega
    | cons top rest =>
      by_cases hidxn : idx = n
      · -- branch A: the permutation is complete; record it and backtrack
        have hcurne : cur ≠ [] := by
          intro hc
          rw [hc] at hidx
          simp at hidx
          omega
        obtain ⟨c, a, rfl⟩ : ∃ c a, cur = c ++ [a] := by
          rcases List.eq_nil_or_concat cur with h' | ⟨c, a, h'⟩
          · exact absurd h' hcurne
          · exact ⟨c, a, by simpa using h'⟩
        have hclen : c.length + 1 = idx := by simpa using hidx.symm
        have hanotc : c.Nodup ∧ a ∉ c := by
          simp [List.nodup_append] at hnd
          exact ⟨hnd.1, hnd.2⟩
        have ha_lt : a < n := hvcur a (by simp)
        have hgetlast : (c ++ [a]).getD (idx - 1) 0 = a := by
          have h' : idx - 1 = c.length := by omega
          rw [h', getD_append_last]
        simp only [permLoop, if_pos hidxn, if_neg (show ¬ idx = 0 by omega),
          hgetlast, List.dropLast_concat]
        have heq := ih (top :: rest) (seen.set a 0) c (acc ++ [c ++ [a]]) (idx - 1)
          (by omega) (by omega)
          (by
            rw [if_pos hidxn] at hslen
            rw [if_neg (show ¬ idx - 1 = n by omega), hslen]
            omega)
          hanotc.1
          (fun v hv => hvcur v (by simp [hv]))
          hstk
          (by simpa using hseenlen)
          (by
            intro v hv
            by_cases hva : v = a
            · subst hva
              rw [getD_set_self seen (by omega) 0 0]
              simp [hanotc.2]
            · rw [getD_set_ne seen (fun h => hva h.symm) 0 0, hchar v hv]
              simp [hva])
          (by
            have h' : loopMeasure n (top :: rest) (idx - 1)
                < loopMeasure n (top :: rest) idx := by
              unfold loopMeasure
              omega
            omega)
        rw [heq]
        have e1 : n - (idx - 1) - 1 = n - (c ++ [a]).length := by
          simp only [List.length_append, List.length_singleton]
          omega
        simp only [semState, if_pos hidxn, if_neg (show ¬ idx - 1 = n by omega),
          semFrames, e1, List.dropLast_concat, List.append_assoc,
          List.singleton_append]
      · -- idx < n: inspect the top of the stack
        have hidxlt : idx < n := by omega
        rw [if_neg hidxn] at hslen
        cases top with
        | nil =>
          by_cases hidx0 : idx = 0
          · -- break: the stack is exhausted at the starting position
            simp only [permLoop, if_neg hidxn, if_pos hidx0]
            have hrest : rest = [] := by
              rw [List.length_cons] at hslen
              exact List.length_eq_zero.mp (by omega)
            subst hrest
            simp [semState, if_neg hidxn, dfsRow, semFrames]
          · -- backtrack: undo the last move
            have hcurne : cur ≠ [] := by
              intro hc
              rw [hc] at hidx
              simp at hidx
              omega
            obtain ⟨c, a, rfl⟩ : ∃ c a, cur = c ++ [a] := by
              rcases List.eq_nil_or_concat cur with h' | ⟨c, a, h'⟩
              · exact absurd h' hcurne
              · exact ⟨c, a, by simpa using h'⟩
            have hclen : c.length + 1 = idx := by simpa using hidx.symm
            have hanotc : c.Nodup ∧ a ∉ c := by
              simp [List.nodup_append] at hnd
              exact ⟨hnd.1, hnd.2⟩
            have ha_lt : a < n := hvcur a (by simp)
            have hgetlast : (c ++ [a]).getD (idx - 1) 0 = a := by
              have h' : idx - 1 = c.length := by omega
              rw [h', getD_append_last]
            have hrestlen : rest.length = idx := by
              rw [List.length_cons] at hslen
              omega
            obtain ⟨t, fs, rfl⟩ : ∃ t fs, rest = t :: fs := by
              cases rest with
              | nil => simp at hrestlen; omega
              | cons t fs => exact ⟨t, fs, rfl⟩
            simp only [permLoop, if_neg hidxn, if_neg hidx0, hgetlast,
              List.dropLast_concat]
            have heq := ih (t :: fs) (seen.set a 0) c acc (idx - 1)
              (by omega) (by omega)
              (by
                rw [if_neg (show ¬ idx - 1 = n by omega)]
                rw [List.length_cons] at hrestlen ⊢
                omega)
              hanotc.1
              (fun v hv => hvcur v (by simp [hv]))
              (fun e he => hstk e (by simp [he]))
              (by simpa using hseenlen)
              (by
                intro v hv
                by_cases hva : v = a
                · subst hva
                  rw [getD_set_self seen (by omega) 0 0]
                  simp [hanotc.2]
                · rw [getD_set_ne seen (fun h => hva h.symm) 0 0, hchar v hv]
                  simp [hva])
              (by
                have h' := measure_lt_of_cost_lt n idx (idx - 1)
                  ([] :: t :: fs) (t :: fs) (by omega)
                  (cost_pop_lt n (t :: fs) (by
                    rw [List.length_cons] at hrestlen ⊢
                    omega))
                omega)
            rw [heq]
            have e1 : n - (idx - 1) - 1 = n - (c ++ [a]).length := by
              simp only [List.length_append, List.length_singleton]
              omega
            simp only [semState, if_neg hidxn,
              if_neg (show ¬ idx - 1 = n by omega), semFrames, e1,
              List.dropLast_concat, dfsRow, List.nil_append]
        | cons j poss =>
          have hjlt : j < n := (hstk (j :: poss) (by simp)).2 j (by simp)
          by_cases hseenj : seen.getD j 0 ≠ 0
          · -- the number was already used in the current permutation
            have hjin : j ∈ cur := (hchar j hjlt).mp hseenj
            simp only [permLoop, if_neg hidxn, if_pos hseenj]
            have heq := ih (poss :: rest) seen cur acc idx
              hidx hile
              (by
                rw [if_neg hidxn]
                rw [List.length_cons] at hslen ⊢
                omega)
              hnd hvcur
              (by
                intro e he
                rcases List.mem_cons.mp he with heq | he'
                · have h' := hstk (j :: poss) (by simp)
                  rw [heq]
                  refine ⟨?_, fun x hx => h'.2 x (by simp [hx])⟩
                  have h'' := h'.1
                  rw [List.length_cons] at h''
                  omega
                · exact hstk e (by simp [he']))
              hseenlen hchar
              (by
                have h' := measure_lt_of_cost_lt n idx idx
                  ((j :: poss) :: rest) (poss :: rest) (by omega)
                  (cost_tail_lt n j poss rest)
                omega)
            rw [heq]
            simp only [semState, if_neg hidxn, dfsRow, if_pos hjin,
              List.nil_append]
          · -- fresh number: extend the permutation
            have hjnotin : j ∉ cur := fun hj =>
              hseenj ((hchar j hjlt).mpr hj)
            have hrestlen : rest.length = idx := by
              rw [List.length_cons] at hslen
              omega
            have hlen1 : (cur ++ [j]).length = idx + 1 := by
              simp
              omega
            have hnd' : (cur ++ [j]).Nodup := by
              simp [List.nodup_append]
              exact ⟨hnd, hjnotin⟩
            have hvcur' : ∀ v ∈ cur ++ [j], v < n := by
              intro v hv
              rcases List.mem_append.mp hv with hv' | hv'
              · exact hvcur v hv'
              · rw [List.mem_singleton] at hv'
                exact hv' ▸ hjlt
            have hseenlen' : (seen.set j 1).length = n := by simpa using hseenlen
            have hchar' : ∀ v, v < n →
                (((seen.set j 1).getD v 0 ≠ 0) ↔ v ∈ cur ++ [j]) := by
              intro v hv
              by_cases hvj : v = j
              · subst hvj
                rw [getD_set_self seen (by omega) 1 0]
                simp
              · rw [getD_set_ne seen (fun h => hvj h.symm) 1 0, hchar v hv]
                simp [hvj]
            have hrowfacts : (vm.getD (idx + 1) []).length ≤ n
                ∧ ∀ x ∈ vm.getD (idx + 1) [], x < n := by
              by_cases hvm : idx + 1 < vm.length
              · have hmem : vm.getD (idx + 1) [] ∈ vm := by
                  rw [List.getD_eq_getElem _ _ hvm]
                  exact List.getElem_mem hvm
                exact ⟨hrow _ hmem, hval _ hmem⟩
              · rw [List.getD_eq_default _ _ (by omega)]
                simp
            simp only [permLoop, if_neg hidxn, if_neg hseenj]
            by_cases hlt : idx + 1 < n
            · -- push the valid moves for the next position
              rw [if_pos hlt]
              have heq := ih (vm.getD (idx + 1) [] :: poss :: rest)
                (seen.set j 1) (cur ++ [j]) acc (idx + 1)
                hlen1.symm (by omega)
                (by
                  rw [if_neg (show ¬ idx + 1 = n by omega)]
                  simp only [List.length_cons]
                  omega)
                hnd' hvcur'
                (by
                  intro e he
                  rcases List.mem_cons.mp he with heq' | he'
                  · rw [heq']
                    exact hrowfacts
                  · rcases List.mem_cons.mp he' with heq' | he''
                    · have h' := hstk (j :: poss) (by simp)
                      rw [heq']
                      refine ⟨?_, fun x hx => h'.2 x (by simp [hx])⟩
                      have h'' := h'.1
                      rw [List.length_cons] at h''
                      omega
                    · exact hstk e (by simp [he'']))
                hseenlen' hchar'
                (by
                  have h' := measure_lt_of_cost_lt n idx (idx + 1)
                    ((j :: poss) :: rest) (vm.getD (idx + 1) [] :: poss :: rest)
                    (by omega)
                    (cost_push_lt n j poss (vm.getD (idx + 1) []) rest
                      (by omega) (by omega))
                  omega)
              rw [heq]
              congr 1
              simp only [semState, if_neg hidxn,
                if_neg (show ¬ idx + 1 = n by omega), semFrames, dfsRow,
                if_neg hjnotin, List.dropLast_concat, hlen1]
              rw [show n - idx - 1 = (n - (idx + 1) - 1) + 1 from by omega, dfs,
                hlen1]
              rw [show n - (idx + 1) = n - (idx + 1) - 1 + 1 from by omega]
              simp [List.append_assoc]
            · -- next position is the end: nothing to push
              rw [if_neg hlt]
              have hidx1n : idx + 1 = n := by omega
              have heq := ih (poss :: rest) (seen.set j 1) (cur ++ [j]) acc
                (idx + 1)
                hlen1.symm (by omega)
                (by
                  rw [if_pos hidx1n]
                  simp only [List.length_cons]
                  omega)
                hnd' hvcur'
                (by
                  intro e he
                  rcases List.mem_cons.mp he with heq' | he'
                  · have h' := hstk (j :: poss) (by simp)
                    rw [heq']
                    refine ⟨?_, fun x hx => h'.2 x (by simp [hx])⟩
                    have h'' := h'.1
                    rw [List.length_cons] at h''
                    omega
                  · exact hstk e (by simp [he']))
                hseenlen' hchar'
                (by
                  have h' := measure_lt_of_cost_lt n idx (idx + 1)
                    ((j :: poss) :: rest) (poss :: rest) (by omega)
                    (cost_tail_lt n j poss rest)
                  omega)
              rw [heq]
              congr 1
              simp only [semState, if_neg hidxn, if_pos hidx1n, semFrames,
                dfsRow, if_neg hjnotin, List.dropLast_concat, hlen1]
              rw [show n - idx - 1 = 0 from by omega,
                show n - (idx + 1) = 0 from by omega, dfs]
              simp

theorem extractPermutations_eq_dfs (m : List (List Nat)) (hn : 1 ≤ m.length) :
    extractPermutations m = some (dfs (buildValidMoves m) m.length []) := by
  have hlen : (buildValidMoves m).length = m.length := length_buildValidMoves m
  obtain ⟨row0, tail, hvm⟩ : ∃ row0 tail, buildValidMoves m = row0 :: tail := by
    cases hbm : buildValidMoves m with
    | nil => rw [hbm] at hlen; simp at hlen; omega
    | cons a b => exact ⟨a, b, rfl⟩
  have hrows := buildValidMoves_row_bounds m
  have hrow : ∀ r ∈ (row0 :: tail : List (List Nat)), r.length ≤ m.length := by
    intro r hr
    rw [← hvm] at hr
    exact (hrows r hr).1
  have hval : ∀ r ∈ (row0 :: tail : List (List Nat)), ∀ x ∈ r, x < m.length := by
    intro r hr
    rw [← hvm] at hr
    exact (hrows r hr).2
  have hm : loopMeasure m.length [row0] 0 < permFuel m.length row0.length := by
    unfold loopMeasure permFuel
    rw [show ([row0] : List (List Nat)).length = 1 from rfl]
    rw [show m.length + 2 - 1 = m.length + 1 from by omega]
    rw [stackCostTop_cons]
    rw [show stackCostTop (m.length + 2) [] (m.length + 1 + 1) = 0 from rfl]
    simp only [Nat.add_zero]
    omega
  have hspec := permLoop_spec (row0 :: tail) m.length hn hrow hval
    (permFuel m.length row0.length) [row0] (List.replicate m.length 0) [] [] 0
    rfl (by omega)
    (by rw [if_neg (by omega)]; rfl)
    List.nodup_nil
    (by simp)
    (by
      intro e he
      rw [List.mem_singleton] at he
      subst he
      exact ⟨hrow e (by simp), hval e (by simp)⟩)
    (List.length_replicate _ _)
    (by
      intro v hv
      rw [List.getD_eq_getElem _ _ (by simpa using hv)]
      simp)
    hm
  simp only [extractPermutations, hvm]
  rw [hspec]
  congr 1
  have hd : dfs (row0 :: tail) m.length []
      = dfsRow (dfs (row0 :: tail) (m.length - 1)) [] row0 := by
    obtain ⟨k, hk⟩ : ∃ k, m.length = k + 1 := ⟨m.length - 1, by omega⟩
    rw [hk]
    simp [dfs]
  rw [hd]
  simp [semState, if_neg (show ¬ (0 : Nat) = m.length by omega), semFrames]

/-- C7: for every n × n 0/1 matrix with n ≥ 1, `extractPermutations` returns
(without faulting) the collection of exactly those vectors that are
permutations of `{0..n-1}` and pick a 1-entry of the matrix in every row; in
particular, if some row has no 1, the collection is empty. -/
theorem extractPermutations_finds_exactly_valid_permutations
    (m : List (List Nat)) (hn : 1 ≤ m.length)
    (hsq : ∀ row ∈ m, row.length = m.length)
    (h01 : ∀ row ∈ m, ∀ x ∈ row, x = 0 ∨ x = 1) :
    ∃ l, extractPermutations m = some l ∧
      (∀ p, p ∈ l ↔ (p.Perm (List.range m.length) ∧
        ∀ i, i < m.length → (m.getD i []).getD (p.getD i 0) 0 = 1)) ∧
      ((∃ i, i < m.length ∧ ∀ j, j < m.length → (m.getD i []).getD j 0 ≠ 1) →
        l = []) := by
  refine ⟨dfs (buildValidMoves m) m.length [], extractPermutations_eq_dfs m hn,
    ?_, ?_⟩
  · intro p
    rw [mem_dfs]
    simp only [List.length_nil, List.take_zero, Nat.zero_add, Nat.zero_le,
      true_implies, true_and]
    constructor
    · rintro ⟨hplen, hcond⟩
      have hbound : ∀ x ∈ p, x < m.length := by
        intro x hx
        rcases List.mem_iff_getElem.mp hx with ⟨k, hk, hget⟩
        have h' := (hcond k (by omega)).1
        rw [mem_validMoves_iff m (by omega)] at h'
        rw [List.getD_eq_getElem _ _ hk, hget] at h'
        exact h'.1
      have hnd : p.Nodup := by
        rw [nodup_iff_getD_not_mem_take]
        intro k hk
        exact (hcond k hk).2
      refine ⟨perm_range_of_nodup p m.length hnd hplen hbound, ?_⟩
      intro i hi
      have h' := (hcond i (by omega)).1
      rw [mem_validMoves_iff m hi] at h'
      exact h'.2
    · rintro ⟨hperm, hval⟩
      have hplen : p.length = m.length := by
        rw [hperm.length_eq, List.length_range]
      have hnd : p.Nodup := hperm.nodup_iff.mpr (List.nodup_range _)
      have hbound : ∀ x ∈ p, x < m.length := by
        intro x hx
        have := hperm.mem_iff.mp hx
        rwa [List.mem_range] at this
      refine ⟨hplen, ?_⟩
      intro k hk
      rw [hplen] at hk
      refine ⟨?_, ?_⟩
      · rw [mem_validMoves_iff m hk]
        exact ⟨hbound _ (getD_mem p (by omega) 0), hval k hk⟩
      · exact (nodup_iff_getD_not_mem_take p).mp hnd k (by omega)
  · rintro ⟨i, hi, hrow⟩
    rw [List.eq_nil_iff_forall_not_mem]
    intro p hp
    rw [mem_dfs] at hp
    simp only [List.length_nil, Nat.zero_add, Nat.zero_le, true_implies] at hp
    have h' := (hp.2.2 i (by omega)).1
    rw [mem_validMoves_iff m hi] at h'
    exact hrow _ (by
      have hplen : p.length = m.length := hp.2.1
      have := getD_mem p (show i < p.length by omega) 0
      exact h'.1) h'.2

/-- C7, witness: the enumeration on the concrete matrix
`[[1,1],[1,0]]` (whose only valid permutation is `[1,0]`). -/
theorem extractPermutations_finds_exactly_valid_permutations_witness :
    (1 ≤ ([[1,1],[1,0]] : List (List Nat)).length
      ∧ (∀ row ∈ ([[1,1],[1,0]] : List (List Nat)), row.length = 2)
      ∧ (∀ row ∈ ([[1,1],[1,0]] : List (List Nat)), ∀ x ∈ row, x = 0 ∨ x = 1))
    ∧ ∃ l, extractPermutations [[1,1],[1,0]] = some l ∧
      (∀ p, p ∈ l ↔ (p.Perm (List.range ([[1,1],[1,0]] : List (List Nat)).length) ∧
        ∀ i, i < ([[1,1],[1,0]] : List (List Nat)).length →
          (([[1,1],[1,0]] : List (List Nat)).getD i []).getD (p.getD i 0) 0 = 1)) ∧
      ((∃ i, i < ([[1,1],[1,0]] : List (List Nat)).length ∧
          ∀ j, j < ([[1,1],[1,0]] : List (List Nat)).length →
            (([[1,1],[1,0]] : List (List Nat)).getD i []).getD j 0 ≠ 1) →
        l = []) :=
  ⟨⟨by decide, by decide, by decide⟩,
    extractPermutations_finds_exactly_valid_permutations [[1,1],[1,0]]
      (by decide) (by decide) (by decide)⟩

/-- C1, counterexample.  The clauses `A(x).` and `B(x).` pass the
admissibility precheck and have different head qualified names, yet
`M[0][0] = 1` (the matrix entry is set unconditionally, not via the head
comparison of `isValidMove`), and `areBijectivelyEquivalent` returns true,
not false. -/
theorem oracle_ignores_head_names_counterexample :
    precheck ⟨"A", [.var "x"], []⟩ ⟨"B", [.var "x"], []⟩ = true ∧
    ((permMatrix ⟨"A", [.var "x"], []⟩ ⟨"B", [.var "x"], []⟩).getD 0 []).getD 0 0
      = 1 ∧
    (Clause.mk "A" [.var "x"] []).headName ≠ (Clause.mk "B" [.var "x"] []).headName ∧
    areBijectivelyEquivalent ⟨"A", [.var "x"], []⟩ ⟨"B", [.var "x"], []⟩
      = some true := by
  decide

/-!  ## The oracle never consults head relation names (C1, amended)  -/

theorem matchAtoms_cons_cons (la ra : Literal) (ls rs : List Literal)
    (v : Bool) (φ : String → String) :
    matchAtoms (la :: ls) (ra :: rs) v φ
      = if v = false then some (false, φ)
        else
          match la, ra with
          | .atom _ largs, .atom _ rargs =>
            (match matchArgs largs rargs v φ with
             | none => none
             | some (v', φ') => matchAtoms ls rs v' φ')
          | _, _ => none := rfl

theorem matchAtoms_append_singleton_nil (xs : List Literal) (x : Literal)
    (v : Bool) (φ : String → String) :
    matchAtoms (xs ++ [x]) [] v φ = none := by
  cases xs with
  | nil => rfl
  | cons y ys => rfl

theorem matchAtoms_last_names (as bs : List Arg) (nm nm' nm2 nm2' : QName) :
    ∀ (ls rs : List Literal) (v : Bool) (φ : String → String),
    matchAtoms (ls ++ [.atom nm as]) (rs ++ [.atom nm2 bs]) v φ
      = matchAtoms (ls ++ [.atom nm' as]) (rs ++ [.atom nm2' bs]) v φ := by
  intro ls
  induction ls with
  | nil =>
    intro rs v φ
    cases rs with
    | nil => rfl
    | cons r rs' =>
      simp only [List.nil_append, List.cons_append]
      rw [matchAtoms_cons_cons, matchAtoms_cons_cons]
      by_cases hv : v = false
      · rw [if_pos hv, if_pos hv]
      · rw [if_neg hv, if_neg hv]
        cases r with
        | atom rnm rargs =>
          dsimp only
          cases hma : matchArgs as rargs v φ with
          | none => rfl
          | some p =>
            cases p with
            | mk v' φ' => rfl
        | negation n as' => rfl
        | constraintLit op as' => rfl
  | cons l ls' ih =>
    intro rs v φ
    cases rs with
    | nil =>
      simp only [List.cons_append, List.nil_append]
      rw [matchAtoms_cons_cons, matchAtoms_cons_cons]
      by_cases hv : v = false
      · rw [if_pos hv, if_pos hv]
      · rw [if_neg hv, if_neg hv]
        cases l with
        | atom lnm largs =>
          dsimp only
          cases hma : matchArgs largs bs v φ with
          | none => rfl
          | some p =>
            cases p with
            | mk v' φ' =>
              dsimp only
              rw [matchAtoms_append_singleton_nil, matchAtoms_append_singleton_nil]
        | negation n as' => rfl
        | constraintLit op as' => rfl
    | cons r rs' =>
      simp only [List.cons_append]
      rw [matchAtoms_cons_cons, matchAtoms_cons_cons]
      by_cases hv : v = false
      · rw [if_pos hv, if_pos hv]
      · rw [if_neg hv, if_neg hv]
        cases l with
        | atom lnm largs =>
          cases r with
          | atom rnm rargs =>
            dsimp only
            cases hma : matchArgs largs rargs v φ with
            | none => rfl
            | some p =>
              cases p with
              | mk v' φ' => exact ih rs' v' φ'
          | negation n as' => rfl
          | constraintLit op as' => rfl
        | negation n as' => cases r <;> rfl
        | constraintLit op as' => cases r <;> rfl

theorem isValidMove_setHeadName (L R : Clause) (nm nm' : QName) {i j : Nat}
    (hi : 1 ≤ i) (hj : 1 ≤ j) :
    isValidMove (L.setHeadName nm) i (R.setHeadName nm') j
      = isValidMove L i R j := by
  unfold isValidMove Clause.setHeadName
  simp [show ¬ i = 0 from by omega, show ¬ j = 0 from by omega]

theorem permMatrix_setHeadName (L R : Clause) (nm nm' : QName) :
    permMatrix (L.setHeadName nm) (R.setHeadName nm') = permMatrix L R := by
  unfold permMatrix
  have hb : (L.setHeadName nm).body = L.body := rfl
  rw [hb]
  apply List.map_congr_left
  intro i _
  apply List.map_congr_left
  intro j _
  by_cases h00 : i = 0 ∧ j = 0
  · rw [if_pos h00, if_pos h00]
  · rw [if_neg h00, if_neg h00]
    by_cases hij : 1 ≤ i ∧ 1 ≤ j
    · rw [isValidMove_setHeadName L R nm nm' hij.1 hij.2]
    · rw [if_neg (fun h => hij ⟨h.1, h.2.1⟩), if_neg (fun h => hij ⟨h.1, h.2.1⟩)]

theorem isValidPermutation_setHeadName (L R : Clause) (nm nm' : QName)
    (p : List Nat) :
    isValidPermutation (L.setHeadName nm) (R.setHeadName nm') p
      = isValidPermutation L R p := by
  unfold isValidPermutation reorderAtoms Clause.headAtom Clause.setHeadName
  exact matchAtoms_last_names L.headArgs R.headArgs nm L.headName nm' R.headName
    _ _ true (fun _ => "")

theorem firstValid_setHeadName (L R : Clause) (nm nm' : QName)
    (ps : List (List Nat)) :
    firstValid (L.setHeadName nm) (R.setHeadName nm') ps = firstValid L R ps := by
  induction ps with
  | nil => rfl
  | cons p ps ih =>
    unfold firstValid
    rw [isValidPermutation_setHeadName, ih]

/-- C1, amended: `M[0][0]` is 1 unconditionally — `isValidMove`'s head-name
comparison is never consulted at `(0,0)` — and consequently
`areBijectivelyEquivalent` never compares head qualified names at all:
renaming the head relation of either clause (or both) does not change its
verdict. -/
theorem matrix00_one_and_oracle_ignores_head_names (L R : Clause)
    (nm nm' : QName) :
    ((permMatrix L R).getD 0 []).getD 0 0 = 1
    ∧ areBijectivelyEquivalent (L.setHeadName nm) (R.setHeadName nm')
        = areBijectivelyEquivalent L R := by
  constructor
  · simp only [permMatrix]
    rw [getD_map_range _ (show 0 < L.body.length + 1 from by omega) []]
    rw [getD_map_range _ (show 0 < L.body.length + 1 from by omega) 0]
    simp
  · unfold areBijectivelyEquivalent
    have h1 : isValidClause (L.setHeadName nm) = isValidClause L := rfl
    have h2 : isValidClause (R.setHeadName nm') = isValidClause R := rfl
    have h3 : (L.setHeadName nm).body = L.body := rfl
    have h4 : (R.setHeadName nm').body = R.body := rfl
    have h5 : (L.setHeadName nm).headArgs = L.headArgs := rfl
    have h6 : (R.setHeadName nm').headArgs = R.headArgs := rfl
    have h7 : (L.setHeadName nm).varSet = L.varSet := rfl
    have h8 : (R.setHeadName nm').varSet = R.varSet := rfl
    rw [h1, h2, h3, h4, h5, h6, h7, h8, permMatrix_setHeadName]
    cases extractPermutations (permMatrix L R) with
    | none => rfl
    | some ps =>
      simp only
      rw [firstValid_setHeadName]

/-!  ## Permutation inversion and zip helper lemmas (for C10 and C4)  -/

theorem map_getD_range_self {α : Type} (l : List α) (d : α) :
    (List.range l.length).map (fun k => l.getD k d) = l := by
  apply List.ext_getElem (by simp)
  intro i h1 h2
  simp only [List.getElem_map, List.getElem_range]
  exact List.getD_eq_getElem l d h2

theorem pair_mem_zip {α β : Type} (l1 : List α) (l2 : List β) (i : Nat)
    (h1 : i < l1.length) (h2 : i < l2.length) :
    (l1[i], l2[i]) ∈ l1.zip l2 := by
  have hz : i < (l1.zip l2).length := by
    rw [List.length_zip]
    omega
  have hm := List.getElem_mem hz
  rw [List.getElem_zip] at hm
  exact hm

theorem mem_zip_left {α β : Type} (a : α) (l1 : List α) (l2 : List β)
    (hlen : l1.length ≤ l2.length) (ha : a ∈ l1) : ∃ b, (a, b) ∈ l1.zip l2 := by
  rcases List.mem_iff_getElem.mp ha with ⟨i, hi, rfl⟩
  have hb : i < l2.length := by omega
  exact ⟨l2[i], pair_mem_zip l1 l2 i hi hb⟩

theorem mem_zip_right {α β : Type} (b : β) (l1 : List α) (l2 : List β)
    (hlen : l2.length ≤ l1.length) (hb : b ∈ l2) : ∃ a, (a, b) ∈ l1.zip l2 := by
  rcases List.mem_iff_getElem.mp hb with ⟨i, hi, rfl⟩
  have ha : i < l1.length := by omega
  exact ⟨l1[i], pair_mem_zip l1 l2 i ha hi⟩

theorem mem_zip_iff_getElem {α β : Type} (l1 : List α) (l2 : List β)
    (pr : α × β) (hlen : l1.length = l2.length) :
    pr ∈ l1.zip l2 ↔ ∃ i, ∃ h1 : i < l1.length, ∃ h2 : i < l2.length,
      pr = (l1[i], l2[i]) := by
  constructor
  · intro hm
    rcases List.mem_iff_getElem.mp hm with ⟨i, hi, hget⟩
    rw [List.getElem_zip] at hget
    have hz : i < l1.length := by
      rw [List.length_zip] at hi
      omega
    exact ⟨i, hz, by omega, hget.symm⟩
  · rintro ⟨i, h1, h2, rfl⟩
    exact pair_mem_zip l1 l2 i h1 h2

theorem getD_eq_getElem_of_lt {α : Type} (l : List α) {i : Nat}
    (h : i < l.length) (d : α) : l.getD i d = l[i] :=
  List.getD_eq_getElem l d h

/-- Writes of the `invertPerm` fold at positions other than `q` do not
change position `q`. -/
theorem foldl_set_getD_untouched (bp : List Nat) (q : Nat) :
    ∀ (K : List Nat) (acc : List Nat), (∀ i ∈ K, bp.getD i 0 ≠ q) →
    (K.foldl (fun acc i => acc.set (bp.getD i 0) i) acc).getD q 0
      = acc.getD q 0 := by
  intro K
  induction K with
  | nil => intro acc _; rfl
  | cons i K' ih =>
    intro acc hK
    rw [List.foldl_cons, ih _ (fun i' hi' => hK i' (by simp [hi']))]
    exact getD_set_ne acc (hK i (by simp)) i 0

theorem foldl_set_length (bp : List Nat) :
    ∀ (K : List Nat) (acc : List Nat),
    (K.foldl (fun acc i => acc.set (bp.getD i 0) i) acc).length = acc.length := by
  intro K
  induction K with
  | nil => intro acc; rfl
  | cons i K' ih =>
    intro acc
    rw [List.foldl_cons, ih]
    exact List.length_set acc _ _

theorem invertPerm_length (bp : List Nat) :
    (invertPerm bp).length = bp.length := by
  unfold invertPerm
  rw [foldl_set_length]
  exact List.length_replicate _ _

theorem invertPerm_getD_lt (bp : List Nat) (h0 : 0 < bp.length)
    (hlt : ∀ x ∈ bp, x < bp.length) (k : Nat) :
    (invertPerm bp).getD k 0 < bp.length := by
  by_cases hk : k < (invertPerm bp).length
  · have hmem : (invertPerm bp).getD k 0 ∈ invertPerm bp := getD_mem _ hk 0
    unfold invertPerm at hmem
    -- every element of the fold result is either from the initial zeros or a
    -- written index from the range
    have hgen : ∀ (K : List Nat) (acc : List Nat), (∀ x ∈ acc, x < bp.length) →
        (∀ i ∈ K, i < bp.length) →
        ∀ x ∈ K.foldl (fun acc i => acc.set (bp.getD i 0) i) acc, x < bp.length := by
      intro K
      induction K with
      | nil => intro acc hacc _ x hx; exact hacc x hx
      | cons i K' ih =>
        intro acc hacc hK x hx
        rw [List.foldl_cons] at hx
        refine ih _ ?_ (fun i' hi' => hK i' (by simp [hi'])) x hx
        intro y hy
        rcases List.mem_or_eq_of_mem_set hy with hy' | hy'
        · exact hacc y hy'
        · exact hy' ▸ hK i (by simp)
    exact hgen _ _ (fun x hx => (List.eq_of_mem_replicate hx) ▸ h0)
      (fun i hi => List.mem_range.mp hi) _ hmem
  · rw [List.getD_eq_default _ _ (by omega)]
    exact h0

theorem invertPerm_getD_bp (bp : List Nat) (hnd : bp.Nodup)
    (hlt : ∀ x ∈ bp, x < bp.length) :
    ∀ i, i < bp.length → (invertPerm bp).getD (bp.getD i 0) 0 = i := by
  have hinj : ∀ i j, i < bp.length → j < bp.length →
      bp.getD i 0 = bp.getD j 0 → i = j := by
    intro i j hi hj he
    rw [getD_eq_getElem_of_lt bp hi 0, getD_eq_getElem_of_lt bp hj 0] at he
    exact hnd.getElem_inj_iff.mp he
  have hgen : ∀ (K : List Nat) (acc : List Nat), acc.length = bp.length →
      (∀ i ∈ K, i < bp.length) → K.Nodup →
      ∀ i ∈ K,
        (K.foldl (fun acc i => acc.set (bp.getD i 0) i) acc).getD
          (bp.getD i 0) 0 = i := by
    intro K
    induction K with
    | nil => intro acc _ _ _ i hi; exact absurd hi (List.not_mem_nil i)
    | cons i0 K' ih =>
      intro acc hacclen hK hKnd i hi
      rw [List.foldl_cons]
      rcases List.mem_cons.mp hi with rfl | hi'
      · rw [foldl_set_getD_untouched bp _ K' _ (fun i' hi' he => by
          have := hinj i' i (hK i' (by simp [hi'])) (hK i (by simp)) he
          rw [List.nodup_cons] at hKnd
          exact hKnd.1 (this ▸ hi'))]
        exact getD_set_self acc (by rw [hacclen]; exact hlt _ (getD_mem bp (hK i (by simp)) 0)) i 0
      · exact ih _ (by rw [List.length_set]; exact hacclen)
          (fun i' hi'' => hK i' (by simp [hi''])) (List.nodup_cons.mp hKnd).2 i hi'
  intro i hi
  unfold invertPerm
  exact hgen _ _ (List.length_replicate _ _) (fun i' hi' => List.mem_range.mp hi')
    (List.nodup_range _) i (List.mem_range.mpr hi)

/-!  ## Success analysis of the variable-mapping walk (for C10 and C4)  -/

/-- Unfolding equation for `matchArgs` on two cons cells. -/
theorem matchArgs_cons_cons (l r : Arg) (ls rs : List Arg) (valid : Bool)
    (φ : String → String) :
    matchArgs (l :: ls) (r :: rs) valid φ
      = match l, r with
        | .var u, .var v =>
          if φ u = "" then matchArgs ls rs valid (fun x => if x = u then v else φ x)
          else if φ u ≠ v then some (false, φ)
          else matchArgs ls rs valid φ
        | l, r =>
          if (match l, r with | .strConst a, .strConst b => a == b | _, _ => false) then
            matchArgs ls rs true φ
          else if (match l, r with
              | .numConst k a, .numConst k' b => k == k' && a == b
              | _, _ => false) then
            matchArgs ls rs true φ
          else if l matches .nilConst then
            matchArgs ls rs (r matches .nilConst) φ
          else
            some (false, φ) := rfl

/-- A `pairOK` fact survives any extension of the variable map that keeps
assigned (non-sentinel) values, provided the right variable name is not the
sentinel itself. -/
theorem pairOK_lift (φ1 φ2 : String → String)
    (hext : ∀ x, φ1 x ≠ "" → φ2 x = φ1 x) (pr : Arg × Arg)
    (hw : ∀ w, pr.2 = Arg.var w → w ≠ "")
    (h : pairOK φ1 pr) : pairOK φ2 pr := by
  obtain ⟨l, r⟩ := pr
  cases l <;> cases r <;> try exact h
  rename_i u w
  have hw' : w ≠ "" := hw w rfl
  have hu : φ1 u = w := h
  show φ2 u = w
  rw [hext u (by rw [hu]; exact hw')]
  exact hu

/-- What a completed (`validMapping = true`) run of the argument walk
guarantees, provided the left arguments contain no nil constant and the
right variable names avoid the sentinel: the walk consumed every left
argument, it only ever wrote unassigned entries of the map, every aligned
pair of arguments is matched by the final map, and every new assignment
sends a left variable to a right variable's name. -/
theorem matchArgs_true_spec :
    ∀ (ls rs : List Arg) (valid : Bool) (φ φf : String → String),
    (∀ a ∈ ls, a ≠ Arg.nilConst) →
    (∀ v, Arg.var v ∈ rs → v ≠ "") →
    matchArgs ls rs valid φ = some (true, φf) →
    ls.length ≤ rs.length ∧
    (∀ x, φ x ≠ "" → φf x = φ x) ∧
    (∀ pr ∈ ls.zip rs, pairOK φf pr) ∧
    (∀ x, φf x ≠ φ x → Arg.var x ∈ ls ∧ ∃ v, Arg.var v ∈ rs ∧ φf x = v) := by
  intro ls
  induction ls with
  | nil =>
    intro rs valid φ φf _ _ h
    rw [show matchArgs [] rs valid φ = some (valid, φ) from rfl] at h
    have h2 : φ = φf := congrArg Prod.snd (Option.some_inj.mp h)
    refine ⟨Nat.zero_le _, fun x _ => by rw [← h2], by simp, fun x hx => ?_⟩
    rw [← h2] at hx
    exact absurd rfl hx
  | cons l ls ih =>
    intro rs valid φ φf hnil hne h
    cases rs with
    | nil =>
      rw [show matchArgs (l :: ls) [] valid φ = none from rfl] at h
      exact absurd h (by simp)
    | cons r rs =>
      rw [matchArgs_cons_cons] at h
      have hlnil : l ≠ Arg.nilConst := hnil l (by simp)
      have hnil' : ∀ a ∈ ls, a ≠ Arg.nilConst := fun a ha => hnil a (by simp [ha])
      have hne' : ∀ v, Arg.var v ∈ rs → v ≠ "" := fun v hv => hne v (by simp [hv])
      cases l with
      | nilConst => exact absurd rfl hlnil
      | var u =>
        cases r with
        | var v =>
          dsimp only at h
          have hv : v ≠ "" := hne v (by simp)
          by_cases hu : φ u = ""
          · rw [if_pos hu] at h
            obtain ⟨hlen, hA, hB, hC⟩ := ih rs valid _ φf hnil' hne' h
            have hfu : φf u = v := by
              have h2 := hA u (by
                show (if u = u then v else φ u) ≠ ""
                rw [if_pos rfl]; exact hv)
              rw [h2]
              show (if u = u then v else φ u) = v
              rw [if_pos rfl]
            refine ⟨by simpa using Nat.succ_le_succ hlen, ?_, ?_, ?_⟩
            · intro x hx
              have hxu : x ≠ u := fun he => hx (by rw [he, hu])
              have h2 := hA x (by
                show (if x = u then v else φ x) ≠ ""
                rw [if_neg hxu]; exact hx)
              rw [h2]
              show (if x = u then v else φ x) = φ x
              rw [if_neg hxu]
            · intro pr hpr
              rw [List.zip_cons_cons] at hpr
              rcases List.mem_cons.mp hpr with rfl | hpr'
              · exact hfu
              · exact hB pr hpr'
            · intro x hx
              by_cases hxu : x = u
              · subst hxu
                exact ⟨by simp, v, by simp, hfu⟩
              · have h1 : φf x ≠ (fun y => if y = u then v else φ y) x := by
                  show φf x ≠ (if x = u then v else φ x)
                  rw [if_neg hxu]; exact hx
                obtain ⟨hin, w, hw, hfw⟩ := hC x h1
                exact ⟨by simp [hin], w, by simp [hw], hfw⟩
          · rw [if_neg hu] at h
            by_cases huv : φ u = v
            · rw [if_neg (by simpa using huv)] at h
              obtain ⟨hlen, hA, hB, hC⟩ := ih rs valid φ φf hnil' hne' h
              refine ⟨by simpa using Nat.succ_le_succ hlen, hA, ?_, ?_⟩
              · intro pr hpr
                rw [List.zip_cons_cons] at hpr
                rcases List.mem_cons.mp hpr with rfl | hpr'
                · show φf u = v
                  rw [hA u hu, huv]
                · exact hB pr hpr'
              · intro x hx
                obtain ⟨hin, w, hw, hfw⟩ := hC x hx
                exact ⟨by simp [hin], w, by simp [hw], hfw⟩
            · rw [if_pos (by simpa using huv)] at h
              simp at h
        | strConst b => simp at h
        | numConst k b => simp at h
        | nilConst => simp at h
        | other t => simp at h
      | strConst a =>
        cases r with
        | strConst b =>
          dsimp only at h
          by_cases hab : a = b
          · rw [if_pos (by simpa using hab)] at h
            obtain ⟨hlen, hA, hB, hC⟩ := ih rs true φ φf hnil' hne' h
            refine ⟨by simpa using Nat.succ_le_succ hlen, hA, ?_, ?_⟩
            · intro pr hpr
              rw [List.zip_cons_cons] at hpr
              rcases List.mem_cons.mp hpr with rfl | hpr'
              · exact hab
              · exact hB pr hpr'
            · intro x hx
              obtain ⟨hin, w, hw, hfw⟩ := hC x hx
              exact ⟨by simp [hin], w, by simp [hw], hfw⟩
          · rw [if_neg (by simpa using hab)] at h
            simp at h
        | var v => simp at h
        | numConst k b => simp at h
        | nilConst => simp at h
        | other t => simp at h
      | numConst k a =>
        cases r with
        | numConst k' b =>
          dsimp only at h
          by_cases hkb : k = k' ∧ a = b
          · rw [if_neg (by simp), if_pos (by simp [hkb.1, hkb.2])] at h
            obtain ⟨hlen, hA, hB, hC⟩ := ih rs true φ φf hnil' hne' h
            refine ⟨by simpa using Nat.succ_le_succ hlen, hA, ?_, ?_⟩
            · intro pr hpr
              rw [List.zip_cons_cons] at hpr
              rcases List.mem_cons.mp hpr with rfl | hpr'
              · exact hkb
              · exact hB pr hpr'
            · intro x hx
              obtain ⟨hin, w, hw, hfw⟩ := hC x hx
              exact ⟨by simp [hin], w, by simp [hw], hfw⟩
          · rw [if_neg (by simp), if_neg (by
              simp only [Bool.and_eq_true, beq_iff_eq, decide_eq_true_eq]
              exact fun hc => hkb ⟨hc.1, hc.2⟩)] at h
            simp at h
        | var v => simp at h
        | strConst b => simp at h
        | nilConst => simp at h
        | other t => simp at h
      | other t =>
        cases r with
        | var v => simp at h
        | strConst b => simp at h
        | numConst k b => simp at h
        | nilConst => simp at h
        | other t' => simp at h

/-- With the running flag already `false`, the atom walk can never complete
with flag `true`. -/
theorem matchAtoms_false_not_true (ls rs : List Literal) (φ φf : String → String) :
    matchAtoms ls rs false φ ≠ some (true, φf) := by
  cases ls with
  | nil =>
    intro h
    rw [show matchAtoms [] rs false φ = some (false, φ) from rfl] at h
    simp at h
  | cons la ls' =>
    cases rs with
    | nil =>
      intro h
      rw [show matchAtoms (la :: ls') [] false φ = none from rfl] at h
      exact absurd h (by simp)
    | cons ra rs' =>
      intro h
      rw [matchAtoms_cons_cons, if_pos rfl] at h
      simp at h

/-- What a completed (`validMapping = true`) run of the atom walk
guarantees (same conditions as `matchArgs_true_spec`, per atom): the left
atom list is no longer than the right one, assigned map entries are
preserved, for every aligned pair of atoms the right argument list is at
least as long and each aligned argument pair is matched by the final map,
and every change to the map binds a left variable to a right variable's
name. -/
theorem matchAtoms_true_spec :
    ∀ (ls rs : List Literal) (valid : Bool) (φ φf : String → String),
    (∀ la ∈ ls, ∀ a ∈ la.args, a ≠ Arg.nilConst) →
    (∀ ra ∈ rs, ∀ v, Arg.var v ∈ ra.args → v ≠ "") →
    matchAtoms ls rs valid φ = some (true, φf) →
    ls.length ≤ rs.length ∧
    (∀ x, φ x ≠ "" → φf x = φ x) ∧
    (∀ pr ∈ ls.zip rs, pr.1.args.length ≤ pr.2.args.length ∧
      ∀ apr ∈ pr.1.args.zip pr.2.args, pairOK φf apr) ∧
    (∀ x, φf x ≠ φ x → (∃ la ∈ ls, Arg.var x ∈ la.args) ∧
      ∃ ra ∈ rs, ∃ v, Arg.var v ∈ ra.args ∧ φf x = v) := by
  intro ls
  induction ls with
  | nil =>
    intro rs valid φ φf _ _ h
    rw [show matchAtoms [] rs valid φ = some (valid, φ) from rfl] at h
    have h2 : φ = φf := congrArg Prod.snd (Option.some_inj.mp h)
    refine ⟨Nat.zero_le _, fun x _ => by rw [← h2], by simp, fun x hx => ?_⟩
    rw [← h2] at hx
    exact absurd rfl hx
  | cons la ls' ih =>
    intro rs valid φ φf hnil hne h
    cases rs with
    | nil =>
      rw [show matchAtoms (la :: ls') [] valid φ = none from rfl] at h
      exact absurd h (by simp)
    | cons ra rs' =>
      rw [matchAtoms_cons_cons] at h
      by_cases hval : valid = false
      · rw [if_pos hval] at h
        simp at h
      · rw [if_neg hval] at h
        have hvt : valid = true := by
          cases valid
          · exact absurd rfl hval
          · rfl
        subst hvt
        have hnil' : ∀ la ∈ ls', ∀ a ∈ la.args, a ≠ Arg.nilConst :=
          fun l hl => hnil l (by simp [hl])
        have hne' : ∀ ra ∈ rs', ∀ v, Arg.var v ∈ ra.args → v ≠ "" :=
          fun r hr => hne r (by simp [hr])
        cases la with
        | negation nm as => simp at h
        | constraintLit op as => simp at h
        | atom nm largs =>
          cases ra with
          | negation nm' as' => simp at h
          | constraintLit op' as' => simp at h
          | atom nm' rargs =>
            dsimp only at h
            cases hma : matchArgs largs rargs true φ with
            | none => rw [hma] at h; simp at h
            | some pr' =>
              obtain ⟨v', φ'⟩ := pr'
              rw [hma] at h
              dsimp only at h
              cases v' with
              | false => exact absurd h (matchAtoms_false_not_true ls' rs' φ' φf)
              | true =>
                obtain ⟨halen, haA, haB, haC⟩ := matchArgs_true_spec largs rargs
                  true φ φ' (hnil (.atom nm largs) (by simp)) (hne (.atom nm' rargs) (by simp)) hma
                obtain ⟨hlen, hA, hB, hC⟩ := ih rs' true φ' φf hnil' hne' h
                refine ⟨by simpa using Nat.succ_le_succ hlen, ?_, ?_, ?_⟩
                · intro x hx
                  rw [hA x (by rw [haA x hx]; exact hx), haA x hx]
                · intro pr hpr
                  rw [List.zip_cons_cons] at hpr
                  rcases List.mem_cons.mp hpr with rfl | hpr'
                  · refine ⟨halen, ?_⟩
                    intro apr hapr
                    refine pairOK_lift φ' φf hA apr ?_ (haB apr hapr)
                    intro w hw
                    refine hne (.atom nm' rargs) (by simp) w ?_
                    show Arg.var w ∈ (Literal.atom nm' rargs).args
                    rw [← hw]
                    exact (List.of_mem_zip hapr).2
                  · exact hB pr hpr'
                · intro x hx
                  by_cases hx' : φf x = φ' x
                  · obtain ⟨hin, w, hw, hfw⟩ := haC x (by rw [← hx']; exact hx)
                    exact ⟨⟨.atom nm largs, by simp, hin⟩,
                      .atom nm' rargs, by simp, w, hw, by rw [hx', hfw]⟩
                  · obtain ⟨⟨l0, hl0, hin⟩, r0, hr0, w, hw, hfw⟩ := hC x hx'
                    exact ⟨⟨l0, by simp [hl0], hin⟩, r0, by simp [hr0], w, hw, hfw⟩

/-!  ## Structure of an enumerated permutation (for C10 and C4)  -/

/-- Shared characterisation of membership in the result of
`extractPermutations` (same content as the enumeration argument of the C7
development, stated for reuse). -/
theorem mem_extractPermutations_iff (m : List (List Nat)) (hn : 1 ≤ m.length)
    {ps : List (List Nat)} (hps : extractPermutations m = some ps) (p : List Nat) :
    p ∈ ps ↔ p.Perm (List.range m.length) ∧
      ∀ i, i < m.length → (m.getD i []).getD (p.getD i 0) 0 = 1 := by
  have hps' := extractPermutations_eq_dfs m hn
  rw [hps] at hps'
  have hpsd : ps = dfs (buildValidMoves m) m.length [] := Option.some_inj.mp hps'
  subst hpsd
  rw [mem_dfs]
  simp only [List.length_nil, List.take_zero, Nat.zero_add, Nat.zero_le,
    true_implies, true_and]
  constructor
  · rintro ⟨hplen, hcond⟩
    have hbound : ∀ x ∈ p, x < m.length := by
      intro x hx
      rcases List.mem_iff_getElem.mp hx with ⟨k, hk, hget⟩
      have h' := (hcond k (by omega)).1
      rw [mem_validMoves_iff m (by omega)] at h'
      rw [List.getD_eq_getElem _ _ hk, hget] at h'
      exact h'.1
    have hnd : p.Nodup := by
      rw [nodup_iff_getD_not_mem_take]
      intro k hk
      exact (hcond k hk).2
    refine ⟨perm_range_of_nodup p m.length hnd hplen hbound, ?_⟩
    intro i hi
    have h' := (hcond i (by omega)).1
    rw [mem_validMoves_iff m hi] at h'
    exact h'.2
  · rintro ⟨hperm, hval⟩
    have hplen : p.length = m.length := by
      rw [hperm.length_eq, List.length_range]
    have hnd : p.Nodup := hperm.nodup_iff.mpr (List.nodup_range _)
    have hbound : ∀ x ∈ p, x < m.length := by
      intro x hx
      have := hperm.mem_iff.mp hx
      rwa [List.mem_range] at this
    refine ⟨hplen, ?_⟩
    intro k hk
    rw [hplen] at hk
    refine ⟨?_, ?_⟩
    · rw [mem_validMoves_iff m hk]
      exact ⟨hbound _ (getD_mem p (by omega) 0), hval k hk⟩
    · exact (nodup_iff_getD_not_mem_take p).mp hnd k (by omega)

theorem mem_take_getD (l : List Nat) (k x : Nat) (h : x ∈ l.take k) :
    ∃ i, i < k ∧ i < l.length ∧ l.getD i 0 = x := by
  rcases List.mem_iff_getElem.mp h with ⟨i, hi, hget⟩
  rw [List.length_take] at hi
  have hik : i < k := by omega
  have hil : i < l.length := by omega
  refine ⟨i, hik, hil, ?_⟩
  rw [List.getD_eq_getElem l 0 hil, ← hget, List.getElem_take]

theorem nodup_of_getD_inj (l : List Nat)
    (hinj : ∀ i j, i < l.length → j < l.length → l.getD i 0 = l.getD j 0 → i = j) :
    l.Nodup := by
  rw [nodup_iff_getD_not_mem_take]
  intro k hk hmem
  obtain ⟨i, hik, hil, hgi⟩ := mem_take_getD l k _ hmem
  have := hinj i k hil hk hgi
  omega

theorem permMatrix_length (L R : Clause) :
    (permMatrix L R).length = L.body.length + 1 := by
  simp [permMatrix]

theorem permMatrix_entry (L R : Clause) {i j : Nat}
    (hi : i < L.body.length + 1) (hj : j < L.body.length + 1) :
    ((permMatrix L R).getD i []).getD j 0
      = if i = 0 ∧ j = 0 then 1
        else if 1 ≤ i ∧ 1 ≤ j ∧ isValidMove L i R j then 1 else 0 := by
  simp only [permMatrix]
  rw [getD_map_range _ hi, getD_map_range _ hj]

/-- A body-to-body compatibility-matrix move means the two body entries are
atoms with the same qualified name. -/
theorem isValidMove_succ_names (L R : Clause) (i j : Nat)
    (h : isValidMove L (i + 1) R (j + 1) = true) :
    ∃ nm largs rargs, L.body.getD i (.constraintLit 0 []) = .atom nm largs
      ∧ R.body.getD j (.constraintLit 0 []) = .atom nm rargs := by
  unfold isValidMove at h
  rw [if_neg (by simp), if_neg (by simp)] at h
  simp only [Nat.add_sub_cancel] at h
  cases hL : L.body.getD i (.constraintLit 0 []) with
  | atom nm largs =>
    cases hR : R.body.getD j (.constraintLit 0 []) with
    | atom nm' rargs =>
      rw [hL, hR] at h
      dsimp only at h
      exact ⟨nm, largs, rargs, rfl, by rw [beq_iff_eq] at h; rw [h]⟩
    | negation nm' as' => rw [hL, hR] at h; simp at h
    | constraintLit op' as' => rw [hL, hR] at h; simp at h
  | negation nm as =>
    rw [hL] at h
    cases hR : R.body.getD j (.constraintLit 0 []) <;> rw [hR] at h <;> simp at h
  | constraintLit op as =>
    rw [hL] at h
    cases hR : R.body.getD j (.constraintLit 0 []) <;> rw [hR] at h <;> simp at h

/-- The body part `bp` of an enumerated permutation of the compatibility
matrix: length, distinctness, bounds, and the matrix-validated moves. -/
theorem enumerated_bp_facts (L R : Clause) (p : List Nat)
    (hperm : p.Perm (List.range (L.body.length + 1)))
    (hval : ∀ i, i < L.body.length + 1 →
      ((permMatrix L R).getD i []).getD (p.getD i 0) 0 = 1) :
    ((p.drop 1).map (· - 1)).length = L.body.length ∧
    ((p.drop 1).map (· - 1)).Nodup ∧
    (∀ x ∈ (p.drop 1).map (· - 1), x < L.body.length) ∧
    (∀ i, i < L.body.length →
      isValidMove L (i + 1) R (((p.drop 1).map (· - 1)).getD i 0 + 1) = true) := by
  set n := L.body.length with hn
  have hplen : p.length = n + 1 := by rw [hperm.length_eq, List.length_range]
  have hpnd : p.Nodup := hperm.nodup_iff.mpr (List.nodup_range _)
  have hpbound : ∀ x ∈ p, x < n + 1 := by
    intro x hx
    have := hperm.mem_iff.mp hx
    rwa [List.mem_range] at this
  have hpget : ∀ i, i < n + 1 → p.getD i 0 < n + 1 :=
    fun i hi => hpbound _ (getD_mem p (by omega) 0)
  have hpi1 : ∀ i, 1 ≤ i → i < n + 1 →
      1 ≤ p.getD i 0 ∧ isValidMove L i R (p.getD i 0) = true := by
    intro i h1 hi
    have h := hval i hi
    rw [permMatrix_entry L R hi (hpget i hi)] at h
    rw [if_neg (by omega)] at h
    by_cases hc : 1 ≤ i ∧ 1 ≤ p.getD i 0 ∧ isValidMove L i R (p.getD i 0)
    · exact ⟨hc.2.1, hc.2.2⟩
    · rw [if_neg hc] at h
      simp at h
  have hbplen : ((p.drop 1).map (· - 1)).length = n := by
    rw [List.length_map, List.length_drop, hplen]
    omega
  have hbpget : ∀ k, k < n →
      ((p.drop 1).map (· - 1)).getD k 0 = p.getD (k + 1) 0 - 1 := by
    intro k hk
    have hk' : k < ((p.drop 1).map (· - 1)).length := by omega
    rw [List.getD_eq_getElem _ _ hk']
    rw [List.getElem_map]
    rw [List.getElem_drop]
    rw [List.getD_eq_getElem p 0 (by omega)]
    congr 2
    omega
  refine ⟨hbplen, ?_, ?_, ?_⟩
  · apply nodup_of_getD_inj
    intro i j hi hj he
    rw [hbplen] at hi hj
    rw [hbpget i hi, hbpget j hj] at he
    have h1i := (hpi1 (i + 1) (by omega) (by omega)).1
    have h1j := (hpi1 (j + 1) (by omega) (by omega)).1
    have he' : p.getD (i + 1) 0 = p.getD (j + 1) 0 := by omega
    have hip : i + 1 < p.length := by omega
    have hjp : j + 1 < p.length := by omega
    have hei : p.getD (i + 1) 0 = p[i + 1] := List.getD_eq_getElem p 0 hip
    have hej : p.getD (j + 1) 0 = p[j + 1] := List.getD_eq_getElem p 0 hjp
    rw [hei, hej] at he'
    have := hpnd.getElem_inj_iff.mp he'
    omega
  · intro x hx
    rcases List.mem_iff_getElem.mp hx with ⟨k, hk, hget⟩
    rw [hbplen] at hk
    rw [← List.getD_eq_getElem _ 0 (by rw [hbplen]; omega), hbpget k hk] at hget
    have h1 := (hpi1 (k + 1) (by omega) (by omega)).1
    have h2 := hpget (k + 1) (by omega)
    omega
  · intro i hi
    have h1 := hpi1 (i + 1) (by omega) (by omega)
    rw [hbpget i hi]
    have : p.getD (i + 1) 0 - 1 + 1 = p.getD (i + 1) 0 := by omega
    rw [this]
    exact h1.2

/-- The inverted permutation `rp = invertPerm bp` of a genuine permutation
`bp` of `{0..n-1}`: length, bounds, two-sided inversion, distinctness. -/
theorem perm_inverse_facts (bp : List Nat) (n : Nat) (hlen : bp.length = n)
    (hnd : bp.Nodup) (hbound : ∀ x ∈ bp, x < n) :
    (invertPerm bp).length = n ∧
    (∀ k, k < n → (invertPerm bp).getD k 0 < n) ∧
    (∀ i, i < n → (invertPerm bp).getD (bp.getD i 0) 0 = i) ∧
    (∀ k, k < n → bp.getD ((invertPerm bp).getD k 0) 0 = k) ∧
    (invertPerm bp).Nodup := by
  have hlt : ∀ x ∈ bp, x < bp.length := by rw [hlen]; exact hbound
  have hrlen : (invertPerm bp).length = n := by rw [invertPerm_length, hlen]
  have hrlt : ∀ k, k < n → (invertPerm bp).getD k 0 < n := by
    intro k hk
    have h0 : 0 < bp.length := by omega
    have := invertPerm_getD_lt bp h0 hlt k
    omega
  have hrb : ∀ i, i < n → (invertPerm bp).getD (bp.getD i 0) 0 = i := by
    intro i hi
    exact invertPerm_getD_bp bp hnd hlt i (by omega)
  have hbr : ∀ k, k < n → bp.getD ((invertPerm bp).getD k 0) 0 = k := by
    intro k hk
    have hbperm : bp.Perm (List.range n) := perm_range_of_nodup bp n hnd hlen hbound
    have hkbp : k ∈ bp := hbperm.mem_iff.mpr (List.mem_range.mpr hk)
    rcases List.mem_iff_getElem.mp hkbp with ⟨idx, hidx, hget⟩
    have hgetD : bp.getD idx 0 = k := by rw [List.getD_eq_getElem bp 0 hidx, hget]
    have : (invertPerm bp).getD k 0 = idx := by
      rw [← hgetD]
      exact hrb idx (by omega)
    rw [this, hgetD]
  refine ⟨hrlen, hrlt, hrb, hbr, ?_⟩
  apply nodup_of_getD_inj
  intro i j hi hj he
  rw [hrlen] at hi hj
  have h1 := hbr i hi
  have h2 := hbr j hj
  rw [← h1, ← h2, he]

/-- The reordered left body: a permutation of the original body, with the
stated entries. -/
theorem reordered_body_facts (L : Clause) (rp : List Nat)
    (hlen : rp.length = L.body.length) (hnd : rp.Nodup)
    (hbound : ∀ k, k < L.body.length → rp.getD k 0 < L.body.length) :
    (reorderAtoms L rp).body.Perm L.body ∧
    (reorderAtoms L rp).body.length = L.body.length ∧
    ∀ k, k < L.body.length → (reorderAtoms L rp).body.getD k (.atom "" [])
      = L.body.getD (rp.getD k 0) (.atom "" []) := by
  have hbound' : ∀ x ∈ rp, x < L.body.length := by
    intro x hx
    rcases List.mem_iff_getElem.mp hx with ⟨k, hk, hget⟩
    have := hbound k (by omega)
    rw [List.getD_eq_getElem rp 0 hk, hget] at this
    exact this
  have hperm : rp.Perm (List.range L.body.length) :=
    perm_range_of_nodup rp L.body.length hnd hlen hbound'
  refine ⟨?_, ?_, ?_⟩
  · show (rp.map (fun j => L.body.getD j (.atom "" []))).Perm L.body
    have h1 := hperm.map (fun j => L.body.getD j (.atom "" []))
    rw [map_getD_range_self L.body (.atom "" [])] at h1
    exact h1
  · show (rp.map (fun j => L.body.getD j (.atom "" []))).length = L.body.length
    rw [List.length_map, hlen]
  · intro k hk
    show (rp.map (fun j => L.body.getD j (.atom "" []))).getD k (.atom "" [])
      = L.body.getD (rp.getD k 0) (.atom "" [])
    rw [List.getD_eq_getElem _ _ (by rw [List.length_map]; omega)]
    rw [List.getElem_map]
    rw [List.getD_eq_getElem rp 0 (by omega)]

/-- Membership in a clause's distinct-variable-name set, in terms of its
head atom and body literals. -/
theorem varSet_mem_iff (c : Clause) (x : String) :
    x ∈ c.varSet ↔ ∃ la, (la ∈ c.body ∨ la = c.headAtom) ∧ Arg.var x ∈ la.args := by
  unfold Clause.varSet Clause.varNames Clause.allArgs
  rw [List.mem_toFinset, List.mem_filterMap]
  constructor
  · rintro ⟨a, ha, hfa⟩
    cases a with
    | var nmv =>
      have hax : nmv = x := by simpa using hfa
      subst hax
      rcases List.mem_append.mp ha with h | h
      · exact ⟨c.headAtom, Or.inr rfl, by
          show Arg.var nmv ∈ (Literal.atom c.headName c.headArgs).args
          exact h⟩
      · rcases List.mem_flatMap.mp h with ⟨l0, hl0, hx⟩
        exact ⟨l0, Or.inl hl0, hx⟩
    | strConst s => simp at hfa
    | numConst k v => simp at hfa
    | nilConst => simp at hfa
    | other t => simp at hfa
  · rintro ⟨la, hla, hx⟩
    refine ⟨Arg.var x, ?_, rfl⟩
    rcases hla with h | h
    · exact List.mem_append.mpr (Or.inr (List.mem_flatMap.mpr ⟨la, h, hx⟩))
    · subst h
      exact List.mem_append.mpr (Or.inl hx)

theorem noNil_args (c : Clause) (h : c.noNil = true) (la : Literal)
    (hla : la ∈ c.body ∨ la = c.headAtom) (a : Arg) (ha : a ∈ la.args) :
    a ≠ Arg.nilConst := by
  unfold Clause.noNil at h
  rw [List.all_eq_true] at h
  have hmem : a ∈ c.allArgs := by
    unfold Clause.allArgs
    rcases hla with h' | h'
    · exact List.mem_append.mpr (Or.inr (List.mem_flatMap.mpr ⟨la, h', ha⟩))
    · subst h'
      exact List.mem_append.mpr (Or.inl ha)
  have := h a hmem
  cases a <;> simp_all

theorem varNamesNonempty_args (c : Clause) (h : c.varNamesNonempty = true)
    (la : Literal) (hla : la ∈ c.body ∨ la = c.headAtom) (v : String)
    (hv : Arg.var v ∈ la.args) : v ≠ "" := by
  unfold Clause.varNamesNonempty at h
  rw [List.all_eq_true] at h
  have hvm : v ∈ c.varSet := (varSet_mem_iff c v).mpr ⟨la, hla, hv⟩
  have hvn : v ∈ c.varNames := by
    unfold Clause.varSet at hvm
    rwa [List.mem_toFinset] at hvm
  have := h v hvn
  simpa using this

/-- `bodyAritiesOk` at two concrete name-matched body atoms. -/
theorem bodyAritiesOk_spec (L R : Clause) (h : bodyAritiesOk L R = true)
    (nm : QName) (largs rargs : List Arg)
    (hl : Literal.atom nm largs ∈ L.body) (hr : Literal.atom nm rargs ∈ R.body) :
    largs.length = rargs.length := by
  unfold bodyAritiesOk at h
  rw [List.all_eq_true] at h
  have h1 := h _ hl
  rw [List.all_eq_true] at h1
  have h2 := h1 _ hr
  unfold litArityOk at h2
  rcases Bool.or_eq_true_iff.mp h2 with h3 | h3
  · rw [bne_iff_ne] at h3
    exact absurd rfl h3
  · rwa [beq_iff_eq] at h3

/-- Core bijectivity fact (shared): the variable map accepted by
`isValidPermutation` on an enumerated permutation of the compatibility
matrix is a bijection between the distinct variable names of the two
clauses, provided the precheck passed, name-matched body atoms share an
arity, the left clause has no nil constant, and no right variable is named
by the empty string (the map's unassigned sentinel). -/
theorem accepted_map_bijOn (L R : Clause) (ps : List (List Nat)) (p : List Nat)
    (φ : String → String)
    (hpre : precheck L R = true)
    (hps : extractPermutations (permMatrix L R) = some ps) (hp : p ∈ ps)
    (hacc : isValidPermutation L R p = some (true, φ))
    (har : bodyAritiesOk L R = true)
    (hnil : L.noNil = true)
    (hne : R.varNamesNonempty = true) :
    Set.BijOn φ ↑L.varSet ↑R.varSet := by
  have hpre' := hpre
  simp only [precheck, Bool.and_eq_true, beq_iff_eq] at hpre'
  obtain ⟨⟨⟨⟨hvcL, hvcR⟩, hbl⟩, hha⟩, hcard⟩ := hpre'
  have hchar := (mem_extractPermutations_iff (permMatrix L R)
    (by rw [permMatrix_length]; omega) hps p).mp hp
  rw [permMatrix_length] at hchar
  obtain ⟨hperm, hval⟩ := hchar
  obtain ⟨hbplen, hbpnd, hbpbound, hbpmove⟩ := enumerated_bp_facts L R p hperm hval
  obtain ⟨hrplen, hrpbound, hrb, hbr, hrpnd⟩ := perm_inverse_facts
    ((p.drop 1).map (· - 1)) L.body.length hbplen hbpnd hbpbound
  obtain ⟨hBperm, hBlen, hBget⟩ := reordered_body_facts L
    (invertPerm ((p.drop 1).map (· - 1))) hrplen hrpnd hrpbound
  simp only [isValidPermutation] at hacc
  set bp := (p.drop 1).map (· - 1) with hbpdef
  set rp := invertPerm bp with hrpdef
  set lb := (reorderAtoms L rp).body with hlbdef
  rw [show (reorderAtoms L rp).headAtom = L.headAtom from rfl] at hacc
  have hLSlen : (lb ++ [L.headAtom]).length = L.body.length + 1 := by
    rw [List.length_append, hBlen]
    rfl
  have hRSlen : (R.body ++ [R.headAtom]).length = L.body.length + 1 := by
    rw [List.length_append, ← hbl]
    rfl
  obtain ⟨hLSle, hmono, hpairs, hchg⟩ := matchAtoms_true_spec
    (lb ++ [L.headAtom]) (R.body ++ [R.headAtom]) true (fun _ => "") φ
    (by
      intro la hla a ha
      refine noNil_args L hnil la ?_ a ha
      rcases List.mem_append.mp hla with h | h
      · exact Or.inl (hBperm.mem_iff.mp h)
      · exact Or.inr (by simpa using h))
    (by
      intro ra hra v hv
      refine varNamesNonempty_args R hne ra ?_ v hv
      rcases List.mem_append.mp hra with h | h
      · exact Or.inl h
      · exact Or.inr (by simpa using h))
    hacc
  have hzip : (lb ++ [L.headAtom]).zip (R.body ++ [R.headAtom])
      = lb.zip R.body ++ [(L.headAtom, R.headAtom)] := by
    rw [List.zip_append (by rw [hBlen, hbl])]
    rfl
  have hbody_pairs : ∀ pr ∈ lb.zip R.body, ∃ nm largs rargs,
      pr.1 = Literal.atom nm largs ∧ pr.2 = Literal.atom nm rargs ∧
      largs.length = rargs.length := by
    intro pr hpr
    rw [mem_zip_iff_getElem lb R.body pr (by rw [hBlen, hbl])] at hpr
    obtain ⟨k, h1, h2, rfl⟩ := hpr
    have hk : k < L.body.length := by rw [hBlen] at h1; exact h1
    have hi : rp.getD k 0 < L.body.length := hrpbound k hk
    have hbrk : bp.getD (rp.getD k 0) 0 = k := hbr k hk
    have hmv := hbpmove (rp.getD k 0) hi
    rw [hbrk] at hmv
    obtain ⟨nm, largs, rargs, hatomL, hatomR⟩ := isValidMove_succ_names L R _ k hmv
    rw [List.getD_eq_getElem L.body _ (show rp.getD k 0 < L.body.length by omega)]
      at hatomL
    rw [List.getD_eq_getElem R.body _ (show k < R.body.length by omega)] at hatomR
    refine ⟨nm, largs, rargs, ?_, hatomR, ?_⟩
    · show lb[k] = _
      have e1 : lb[k] = lb.getD k (Literal.atom "" []) :=
        (List.getD_eq_getElem lb _ h1).symm
      rw [e1, hBget k hk,
        List.getD_eq_getElem L.body _ (show rp.getD k 0 < L.body.length by omega)]
      exact hatomL
    · refine bodyAritiesOk_spec L R har nm largs rargs ?_ ?_
      · rw [← hatomL]
        exact List.getElem_mem _
      · rw [← hatomR]
        exact List.getElem_mem _
  have hpair_revlen : ∀ pr ∈ (lb ++ [L.headAtom]).zip (R.body ++ [R.headAtom]),
      pr.2.args.length ≤ pr.1.args.length := by
    intro pr hpr
    rw [hzip] at hpr
    rcases List.mem_append.mp hpr with h | h
    · obtain ⟨nm, largs, rargs, h1, h2, h3⟩ := hbody_pairs pr h
      rw [h1, h2]
      show rargs.length ≤ largs.length
      omega
    · have he : pr = (L.headAtom, R.headAtom) := by simpa using h
      rw [he]
      show R.headArgs.length ≤ L.headArgs.length
      omega
  have hmt : ∀ x ∈ L.varSet, φ x ∈ R.varSet := by
    intro x hx
    obtain ⟨la, hla, hxa⟩ := (varSet_mem_iff L x).mp hx
    have hlaLS : la ∈ lb ++ [L.headAtom] := by
      rcases hla with h | h
      · exact List.mem_append.mpr (Or.inl (hBperm.mem_iff.mpr h))
      · exact List.mem_append.mpr (Or.inr (by simp [h]))
    obtain ⟨ra, hpr⟩ := mem_zip_left la (lb ++ [L.headAtom])
      (R.body ++ [R.headAtom]) (le_of_eq (by rw [hLSlen, hRSlen])) hlaLS
    have hra : ra ∈ R.body ++ [R.headAtom] := (List.of_mem_zip hpr).2
    obtain ⟨rr, hapr⟩ := mem_zip_left (Arg.var x) la.args ra.args
      (hpairs _ hpr).1 hxa
    have hpok := (hpairs _ hpr).2 _ hapr
    have hrr : rr ∈ ra.args := (List.of_mem_zip hapr).2
    cases rr with
    | var w =>
      have hw : φ x = w := hpok
      rw [varSet_mem_iff]
      refine ⟨ra, ?_, by rw [hw]; exact hrr⟩
      rcases List.mem_append.mp hra with h | h
      · exact Or.inl h
      · exact Or.inr (by simpa using h)
    | strConst s => exact hpok.elim
    | numConst k v => exact hpok.elim
    | nilConst => exact hpok.elim
    | other t => exact hpok.elim
  have hsj : ∀ w ∈ R.varSet, ∃ x ∈ L.varSet, φ x = w := by
    intro w hw
    obtain ⟨ra, hra, hwa⟩ := (varSet_mem_iff R w).mp hw
    have hraRS : ra ∈ R.body ++ [R.headAtom] := by
      rcases hra with h | h
      · exact List.mem_append.mpr (Or.inl h)
      · exact List.mem_append.mpr (Or.inr (by simp [h]))
    obtain ⟨la, hpr⟩ := mem_zip_right ra (lb ++ [L.headAtom])
      (R.body ++ [R.headAtom]) (le_of_eq (by rw [hLSlen, hRSlen])) hraRS
    have hla : la ∈ lb ++ [L.headAtom] := (List.of_mem_zip hpr).1
    obtain ⟨ll, hapr⟩ := mem_zip_right (Arg.var w) la.args ra.args
      (hpair_revlen _ hpr) hwa
    have hpok := (hpairs _ hpr).2 _ hapr
    have hll : ll ∈ la.args := (List.of_mem_zip hapr).1
    cases ll with
    | var x =>
      have hxw : φ x = w := hpok
      refine ⟨x, ?_, hxw⟩
      rw [varSet_mem_iff]
      refine ⟨la, ?_, hll⟩
      rcases List.mem_append.mp hla with h | h
      · exact Or.inl (hBperm.mem_iff.mp h)
      · exact Or.inr (by simpa using h)
    | strConst s => exact hpok.elim
    | numConst k v => exact hpok.elim
    | nilConst => exact hpok.elim
    | other t => exact hpok.elim
  have himg : L.varSet.image φ = R.varSet := by
    apply Finset.Subset.antisymm
    · intro y hy
      rw [Finset.mem_image] at hy
      obtain ⟨x, hx, rfl⟩ := hy
      exact hmt x hx
    · intro w hw
      obtain ⟨x, hx, hxw⟩ := hsj w hw
      rw [Finset.mem_image]
      exact ⟨x, hx, hxw⟩
  have hinj : Set.InjOn φ ↑L.varSet :=
    Finset.injOn_of_card_image_eq (by rw [himg]; exact hcard.symm)
  refine ⟨?_, hinj, ?_⟩
  · intro x hx
    exact hmt x hx
  · rw [← himg, Finset.coe_image]
    exact fun y hy => hy

/-!  ## Symmetry machinery (for C4)  -/

theorem swap_mem_zip {α β : Type} (l1 : List α) (l2 : List β)
    (hlen : l1.length = l2.length) (pr : β × α) (h : pr ∈ l2.zip l1) :
    Prod.swap pr ∈ l1.zip l2 := by
  rw [mem_zip_iff_getElem l2 l1 pr hlen.symm] at h
  obtain ⟨i, h1, h2, rfl⟩ := h
  exact pair_mem_zip l1 l2 i h2 h1

theorem getD_ext_nat (l1 l2 : List Nat) (hlen : l1.length = l2.length)
    (h : ∀ k, k < l1.length → l1.getD k 0 = l2.getD k 0) : l1 = l2 := by
  apply List.ext_getElem hlen
  intro i hi1 hi2
  have := h i hi1
  rwa [List.getD_eq_getElem l1 0 hi1, List.getD_eq_getElem l2 0 hi2] at this

theorem map_sub_one_map_add_one (l : List Nat) :
    (l.map (· + 1)).map (· - 1) = l := by
  rw [List.map_map]
  have he : ((· - 1) ∘ (· + 1) : Nat → Nat) = id := by
    funext x
    simp
  rw [he, List.map_id]

/-- Inverting a genuine permutation twice gives it back. -/
theorem invertPerm_invertPerm (bp : List Nat) (n : Nat) (hlen : bp.length = n)
    (hnd : bp.Nodup) (hbound : ∀ x ∈ bp, x < n) :
    invertPerm (invertPerm bp) = bp := by
  obtain ⟨hrlen, hrbound, hrb, hbr, hrnd⟩ := perm_inverse_facts bp n hlen hnd hbound
  have hrbound' : ∀ x ∈ invertPerm bp, x < n := by
    intro x hx
    rcases List.mem_iff_getElem.mp hx with ⟨k, hk, hget⟩
    have := hrbound k (by omega)
    rw [List.getD_eq_getElem _ 0 hk, hget] at this
    exact this
  obtain ⟨hrrlen, hrrbound, hrrb, hrbr, hrrnd⟩ := perm_inverse_facts
    (invertPerm bp) n hrlen hrnd hrbound'
  apply getD_ext_nat _ _ (by rw [hrrlen, hlen])
  intro k hk
  rw [hrrlen] at hk
  have h1 : (invertPerm bp).getD (bp.getD k 0) 0 = k := hrb k hk
  have h2 := hrrb (bp.getD k 0) (hbound _ (getD_mem bp (by omega) 0))
  rw [h1] at h2
  exact h2

theorem bodyAritiesOk_symm (L R : Clause) (h : bodyAritiesOk L R = true) :
    bodyAritiesOk R L = true := by
  unfold bodyAritiesOk at h ⊢
  rw [List.all_eq_true] at h
  rw [List.all_eq_true]
  intro ra hra
  rw [List.all_eq_true]
  intro la hla
  have h1 := h la hla
  rw [List.all_eq_true] at h1
  have h2 := h1 ra hra
  unfold litArityOk at h2 ⊢
  cases la with
  | atom nm largs =>
    cases ra with
    | atom nm' rargs =>
      rcases Bool.or_eq_true_iff.mp h2 with h3 | h3
      · rw [bne_iff_ne] at h3
        apply Bool.or_eq_true_iff.mpr
        left
        rw [bne_iff_ne]
        exact fun he => h3 he.symm
      · rw [beq_iff_eq] at h3
        apply Bool.or_eq_true_iff.mpr
        right
        rw [beq_iff_eq]
        exact h3.symm
    | negation nm' as' => rfl
    | constraintLit op' as' => rfl
  | negation nm largs => cases ra <;> rfl
  | constraintLit op largs => cases ra <;> rfl

theorem precheck_symm (L R : Clause) (h : precheck L R = true) :
    precheck R L = true := by
  simp only [precheck, Bool.and_eq_true, beq_iff_eq] at h ⊢
  obtain ⟨⟨⟨⟨hvL, hvR⟩, hbl⟩, hha⟩, hc⟩ := h
  exact ⟨⟨⟨⟨hvR, hvL⟩, hbl.symm⟩, hha.symm⟩, hc.symm⟩

/-- Converse of `isValidMove_succ_names`: name-matched body atoms make a
valid body-to-body move. -/
theorem isValidMove_succ_of_atoms (L R : Clause) (i j : Nat) (nm : QName)
    (largs rargs : List Arg)
    (hL : L.body.getD i (.constraintLit 0 []) = .atom nm largs)
    (hR : R.body.getD j (.constraintLit 0 []) = .atom nm rargs) :
    isValidMove L (i + 1) R (j + 1) = true := by
  unfold isValidMove
  rw [if_neg (by simp), if_neg (by simp)]
  simp only [Nat.add_sub_cancel]
  rw [hL, hR]
  simp

/-- The argument walk never faults when the right list is at least as long
as the left one. -/
theorem matchArgs_ne_none :
    ∀ (ls rs : List Arg) (valid : Bool) (φ : String → String),
    ls.length ≤ rs.length →
    ∃ r, matchArgs ls rs valid φ = some r := by
  intro ls
  induction ls with
  | nil => exact fun rs valid φ _ => ⟨(valid, φ), rfl⟩
  | cons l ls ih =>
    intro rs valid φ hlen
    cases rs with
    | nil => simp at hlen
    | cons r rs =>
      rw [matchArgs_cons_cons]
      have hlen' : ls.length ≤ rs.length := by
        simp at hlen
        omega
      cases l with
      | var u =>
        cases r with
        | var v =>
          dsimp only
          by_cases hu : φ u = ""
          · rw [if_pos hu]
            exact ih rs valid _ hlen'
          · rw [if_neg hu]
            by_cases huv : φ u = v
            · rw [if_neg (by simpa using huv)]
              exact ih rs valid φ hlen'
            · rw [if_pos (by simpa using huv)]
              exact ⟨(false, φ), rfl⟩
        | strConst b => exact ⟨(false, φ), rfl⟩
        | numConst k b => exact ⟨(false, φ), rfl⟩
        | nilConst => exact ⟨(false, φ), rfl⟩
        | other t => exact ⟨(false, φ), rfl⟩
      | strConst a =>
        cases r with
        | var v => exact ⟨(false, φ), rfl⟩
        | strConst b =>
          dsimp only
          by_cases hab : a = b
          · rw [if_pos (by simpa using hab)]
            exact ih rs true φ hlen'
          · rw [if_neg (by simpa using hab)]
            exact ⟨(false, φ), rfl⟩
        | numConst k b => exact ⟨(false, φ), rfl⟩
        | nilConst => exact ⟨(false, φ), rfl⟩
        | other t => exact ⟨(false, φ), rfl⟩
      | numConst k a =>
        cases r with
        | var v => exact ⟨(false, φ), rfl⟩
        | strConst b => exact ⟨(false, φ), rfl⟩
        | numConst k' b =>
          dsimp only
          by_cases hkb : k = k' ∧ a = b
          · rw [if_neg (by simp), if_pos (by simp [hkb.1, hkb.2])]
            exact ih rs true φ hlen'
          · rw [if_neg (by simp), if_neg (by
              simp only [Bool.and_eq_true, beq_iff_eq, decide_eq_true_eq]
              exact fun hc => hkb ⟨hc.1, hc.2⟩)]
            exact ⟨(false, φ), rfl⟩
        | nilConst => exact ⟨(false, φ), rfl⟩
        | other t => exact ⟨(false, φ), rfl⟩
      | nilConst =>
        dsimp only
        rw [if_neg (by cases r <;> simp), if_neg (by cases r <;> simp),
          if_pos (by simp)]
        exact ih rs _ φ hlen'
      | other t =>
        cases r with
        | var v => exact ⟨(false, φ), rfl⟩
        | strConst b => exact ⟨(false, φ), rfl⟩
        | numConst k b => exact ⟨(false, φ), rfl⟩
        | nilConst => exact ⟨(false, φ), rfl⟩
        | other t' => exact ⟨(false, φ), rfl⟩

/-- The atom walk never faults when every aligned pair is a pair of atoms
with the right argument list at least as long as the left one. -/
theorem matchAtoms_ne_none :
    ∀ (ls rs : List Literal) (valid : Bool) (φ : String → String),
    ls.length ≤ rs.length →
    (∀ pr ∈ ls.zip rs, (∃ nm largs nm' rargs, pr.1 = Literal.atom nm largs
        ∧ pr.2 = Literal.atom nm' rargs)
      ∧ pr.1.args.length ≤ pr.2.args.length) →
    ∃ r, matchAtoms ls rs valid φ = some r := by
  intro ls
  induction ls with
  | nil => exact fun rs valid φ _ _ => ⟨(valid, φ), rfl⟩
  | cons la ls ih =>
    intro rs valid φ hlen hpairs
    cases rs with
    | nil => simp at hlen
    | cons ra rs =>
      rw [matchAtoms_cons_cons]
      by_cases hv : valid = false
      · rw [if_pos hv]
        exact ⟨(false, φ), rfl⟩
      · rw [if_neg hv]
        obtain ⟨⟨nm, largs, nm', rargs, h1, h2⟩, hle⟩ :=
          hpairs (la, ra) (by rw [List.zip_cons_cons]; simp)
        subst h1
        subst h2
        dsimp only
        obtain ⟨⟨v', φ'⟩, hma⟩ := matchArgs_ne_none largs rargs valid φ hle
        rw [hma]
        dsimp only
        exact ih rs v' φ' (by simpa using hlen)
          (fun pr hpr => hpairs pr (by rw [List.zip_cons_cons]; simp [hpr]))

/-- With no faulting permutation, the permutation loop returns a boolean. -/
theorem firstValid_tf (L R : Clause) (ps : List (List Nat))
    (hnf : ∀ p ∈ ps, isValidPermutation L R p ≠ none) :
    firstValid L R ps = some true ∨ firstValid L R ps = some false := by
  induction ps with
  | nil => exact Or.inr rfl
  | cons p ps ih =>
    unfold firstValid
    cases hivp : isValidPermutation L R p with
    | none => exact absurd hivp (hnf p (by simp))
    | some r =>
      obtain ⟨v, φ⟩ := r
      cases v with
      | true => exact Or.inl rfl
      | false => exact ih (fun p' hp' => hnf p' (by simp [hp']))

/-- With no faulting permutation, the loop returns `true` exactly when some
enumerated permutation is accepted. -/
theorem firstValid_true_iff (L R : Clause) (ps : List (List Nat))
    (hnf : ∀ p ∈ ps, isValidPermutation L R p ≠ none) :
    (firstValid L R ps = some true
      ↔ ∃ p ∈ ps, ∃ φ, isValidPermutation L R p = some (true, φ)) := by
  induction ps with
  | nil =>
    constructor
    · intro h
      exact absurd h (by unfold firstValid; simp)
    · rintro ⟨p, hp, -⟩
      exact absurd hp (List.not_mem_nil p)
  | cons p ps ih =>
    unfold firstValid
    cases hivp : isValidPermutation L R p with
    | none => exact absurd hivp (hnf p (by simp))
    | some r =>
      obtain ⟨v, φ⟩ := r
      cases v with
      | true =>
        constructor
        · intro _
          exact ⟨p, by simp, φ, hivp⟩
        · intro _
          rfl
      | false =>
        rw [ih (fun p' hp' => hnf p' (by simp [hp']))]
        constructor
        · rintro ⟨p', hp', φ', hacc⟩
          exact ⟨p', by simp [hp'], φ', hacc⟩
        · rintro ⟨p', hp', φ', hacc⟩
          rcases List.mem_cons.mp hp' with rfl | hp''
          · rw [hivp] at hacc
            simp at hacc
          · exact ⟨p', hp'', φ', hacc⟩

/-- The aligned literal pairs induced by an enumerated permutation: atoms
with equal qualified names and (given `bodyAritiesOk`) equal arities. -/
theorem enumerated_zip_struct (L R : Clause) (ps : List (List Nat)) (p : List Nat)
    (hps : extractPermutations (permMatrix L R) = some ps) (hp : p ∈ ps)
    (hbl : L.body.length = R.body.length) (har : bodyAritiesOk L R = true) :
    ∀ pr ∈ ((reorderAtoms L (invertPerm ((p.drop 1).map (· - 1)))).body).zip R.body,
      ∃ nm largs rargs, pr.1 = Literal.atom nm largs ∧ pr.2 = Literal.atom nm rargs ∧
        largs.length = rargs.length := by
  have hchar := (mem_extractPermutations_iff (permMatrix L R)
    (by rw [permMatrix_length]; omega) hps p).mp hp
  rw [permMatrix_length] at hchar
  obtain ⟨hperm, hval⟩ := hchar
  obtain ⟨hbplen, hbpnd, hbpbound, hbpmove⟩ := enumerated_bp_facts L R p hperm hval
  obtain ⟨hrplen, hrpbound, hrb, hbr, hrpnd⟩ := perm_inverse_facts
    ((p.drop 1).map (· - 1)) L.body.length hbplen hbpnd hbpbound
  obtain ⟨hBperm, hBlen, hBget⟩ := reordered_body_facts L
    (invertPerm ((p.drop 1).map (· - 1))) hrplen hrpnd hrpbound
  set bp := (p.drop 1).map (· - 1) with hbpdef
  set rp := invertPerm bp with hrpdef
  set lb := (reorderAtoms L rp).body with hlbdef
  intro pr hpr
  rw [mem_zip_iff_getElem lb R.body pr (by rw [hBlen, hbl])] at hpr
  obtain ⟨k, h1, h2, rfl⟩ := hpr
  have hk : k < L.body.length := by rw [hBlen] at h1; exact h1
  have hi : rp.getD k 0 < L.body.length := hrpbound k hk
  have hbrk : bp.getD (rp.getD k 0) 0 = k := hbr k hk
  have hmv := hbpmove (rp.getD k 0) hi
  rw [hbrk] at hmv
  obtain ⟨nm, largs, rargs, hatomL, hatomR⟩ := isValidMove_succ_names L R _ k hmv
  rw [List.getD_eq_getElem L.body _ (show rp.getD k 0 < L.body.length by omega)]
    at hatomL
  rw [List.getD_eq_getElem R.body _ (show k < R.body.length by omega)] at hatomR
  refine ⟨nm, largs, rargs, ?_, hatomR, ?_⟩
  · show lb[k] = _
    have e1 : lb[k] = lb.getD k (Literal.atom "" []) :=
      (List.getD_eq_getElem lb _ h1).symm
    rw [e1, hBget k hk,
      List.getD_eq_getElem L.body _ (show rp.getD k 0 < L.body.length by omega)]
    exact hatomL
  · refine bodyAritiesOk_spec L R har nm largs rargs ?_ ?_
    · rw [← hatomL]
      exact List.getElem_mem _
    · rw [← hatomR]
      exact List.getElem_mem _

/-- Sufficiency: if some total map `ψ` matches every aligned argument pair,
the argument walk completes with `validMapping = true`, and the running map
stays consistent with `ψ` on assigned entries. -/
theorem matchArgs_of_pairOK (ψ : String → String) :
    ∀ (ls rs : List Arg) (φt : String → String),
    ls.length ≤ rs.length →
    (∀ pr ∈ ls.zip rs, pairOK ψ pr) →
    (∀ x, φt x ≠ "" → φt x = ψ x) →
    ∃ φ2, matchArgs ls rs true φt = some (true, φ2) ∧
      (∀ x, φ2 x ≠ "" → φ2 x = ψ x) := by
  intro ls
  induction ls with
  | nil => exact fun rs φt _ _ hinv => ⟨φt, rfl, hinv⟩
  | cons l ls ih =>
    intro rs φt hlen hpok hinv
    cases rs with
    | nil => simp at hlen
    | cons r rs =>
      have hlen' : ls.length ≤ rs.length := by
        simp at hlen
        omega
      have hhead := hpok (l, r) (by rw [List.zip_cons_cons]; simp)
      have htail : ∀ pr ∈ ls.zip rs, pairOK ψ pr :=
        fun pr hpr => hpok pr (by rw [List.zip_cons_cons]; simp [hpr])
      rw [matchArgs_cons_cons]
      cases l with
      | var u =>
        cases r with
        | var v =>
          have huv : ψ u = v := hhead
          dsimp only
          by_cases hu : φt u = ""
          · rw [if_pos hu]
            refine ih rs _ hlen' htail ?_
            intro x hx
            by_cases hxu : x = u
            · subst hxu
              show (if x = x then v else φt x) = ψ x
              rw [if_pos rfl]
              exact huv.symm
            · have hx' : φt x ≠ "" := by
                intro hc
                apply hx
                show (if x = u then v else φt x) = ""
                rw [if_neg hxu]
                exact hc
              show (if x = u then v else φt x) = ψ x
              rw [if_neg hxu]
              exact hinv x hx'
          · rw [if_neg hu]
            have hfv : φt u = v := by rw [hinv u hu, huv]
            rw [if_neg (by simpa using hfv)]
            exact ih rs φt hlen' htail hinv
        | strConst b => exact hhead.elim
        | numConst k b => exact hhead.elim
        | nilConst => exact hhead.elim
        | other t => exact hhead.elim
      | strConst a =>
        cases r with
        | var v => exact hhead.elim
        | strConst b =>
          have hab : a = b := hhead
          dsimp only
          rw [if_pos (by simpa using hab)]
          exact ih rs φt hlen' htail hinv
        | numConst k b => exact hhead.elim
        | nilConst => exact hhead.elim
        | other t => exact hhead.elim
      | numConst k a =>
        cases r with
        | var v => exact hhead.elim
        | strConst b => exact hhead.elim
        | numConst k' b =>
          have hkb : k = k' ∧ a = b := hhead
          dsimp only
          rw [if_neg (by simp), if_pos (by simp [hkb.1, hkb.2])]
          exact ih rs φt hlen' htail hinv
        | nilConst => exact hhead.elim
        | other t => exact hhead.elim
      | nilConst => cases r <;> exact hhead.elim
      | other t => cases r <;> exact hhead.elim

/-- Sufficiency at the atom level: aligned atom pairs whose argument pairs
are all matched by some total map `ψ` make the atom walk complete with
`validMapping = true`. -/
theorem matchAtoms_of_pairOK (ψ : String → String) :
    ∀ (ls rs : List Literal) (φt : String → String),
    ls.length ≤ rs.length →
    (∀ pr ∈ ls.zip rs, (∃ nm largs nm' rargs, pr.1 = Literal.atom nm largs
        ∧ pr.2 = Literal.atom nm' rargs)
      ∧ pr.1.args.length ≤ pr.2.args.length
      ∧ ∀ apr ∈ pr.1.args.zip pr.2.args, pairOK ψ apr) →
    (∀ x, φt x ≠ "" → φt x = ψ x) →
    ∃ φ2, matchAtoms ls rs true φt = some (true, φ2) := by
  intro ls
  induction ls with
  | nil => exact fun rs φt _ _ _ => ⟨φt, rfl⟩
  | cons la ls ih =>
    intro rs φt hlen hpairs hinv
    cases rs with
    | nil => simp at hlen
    | cons ra rs =>
      rw [matchAtoms_cons_cons, if_neg (by simp)]
      obtain ⟨⟨nm, largs, nm', rargs, h1, h2⟩, hle, hapok⟩ :=
        hpairs (la, ra) (by rw [List.zip_cons_cons]; simp)
      subst h1
      subst h2
      dsimp only
      obtain ⟨φ2, hma, hinv2⟩ := matchArgs_of_pairOK ψ largs rargs φt hle
        (fun apr hapr => hapok apr hapr) hinv
      rw [hma]
      dsimp only
      exact ih rs φ2 (by simpa using hlen)
        (fun pr hpr => hpairs pr (by rw [List.zip_cons_cons]; simp [hpr])) hinv2

/-- Transposing a matched pair through a left inverse of the map. -/
theorem pairOK_swap (φ ψ : String → String) (pr : Arg × Arg)
    (hinv : ∀ u, pr.1 = Arg.var u → ψ (φ u) = u)
    (h : pairOK φ pr) : pairOK ψ (pr.2, pr.1) := by
  obtain ⟨l, r⟩ := pr
  cases l with
  | var u =>
    cases r with
    | var v =>
      have h1 : φ u = v := h
      have h2 := hinv u rfl
      show ψ v = u
      rw [← h1]
      exact h2
    | strConst b => exact h.elim
    | numConst k b => exact h.elim
    | nilConst => exact h.elim
    | other t => exact h.elim
  | strConst a =>
    cases r with
    | var v => exact h.elim
    | strConst b =>
      have h1 : a = b := h
      show b = a
      exact h1.symm
    | numConst k b => exact h.elim
    | nilConst => exact h.elim
    | other t => exact h.elim
  | numConst k a =>
    cases r with
    | var v => exact h.elim
    | strConst b => exact h.elim
    | numConst k' b =>
      have h1 : k = k' ∧ a = b := h
      exact ⟨h1.1.symm, h1.2.symm⟩
    | nilConst => exact h.elim
    | other t => exact h.elim
  | nilConst => cases r <;> exact h.elim
  | other t => cases r <;> exact h.elim

/-- Transfer of an accepted permutation to the swapped oracle call: if the
`(L, R)` search accepts `p` with map `φ`, then the `(R, L)` search accepts
the inverse permutation with the (set-theoretic) inverse of `φ`. -/
theorem accepted_transfer (L R : Clause) (psLR psRL : List (List Nat))
    (p : List Nat) (φ : String → String)
    (hpre : precheck L R = true)
    (hpsLR : extractPermutations (permMatrix L R) = some psLR)
    (hpsRL : extractPermutations (permMatrix R L) = some psRL)
    (hp : p ∈ psLR)
    (hacc : isValidPermutation L R p = some (true, φ))
    (har : bodyAritiesOk L R = true)
    (hnilL : L.noNil = true)
    (hneR : R.varNamesNonempty = true) :
    ∃ q ∈ psRL, ∃ ψ2, isValidPermutation R L q = some (true, ψ2) := by
  have hpre' := hpre
  simp only [precheck, Bool.and_eq_true, beq_iff_eq] at hpre'
  obtain ⟨⟨⟨⟨hvcL, hvcR⟩, hbl⟩, hha⟩, hcard⟩ := hpre'
  have hbij := accepted_map_bijOn L R psLR p φ hpre hpsLR hp hacc har hnilL hneR
  have hinj : Set.InjOn φ ↑L.varSet := hbij.2.1
  have hψ : ∀ u ∈ L.varSet, Function.invFunOn φ ↑L.varSet (φ u) = u :=
    fun u hu => Set.InjOn.leftInvOn_invFunOn hinj hu
  have hchar := (mem_extractPermutations_iff (permMatrix L R)
    (by rw [permMatrix_length]; omega) hpsLR p).mp hp
  rw [permMatrix_length] at hchar
  obtain ⟨hperm, hval⟩ := hchar
  obtain ⟨hbplen, hbpnd, hbpbound, hbpmove⟩ := enumerated_bp_facts L R p hperm hval
  obtain ⟨hrplen, hrpbound, hrb, hbr, hrpnd⟩ := perm_inverse_facts
    ((p.drop 1).map (· - 1)) L.body.length hbplen hbpnd hbpbound
  obtain ⟨hBperm, hBlen, hBget⟩ := reordered_body_facts L
    (invertPerm ((p.drop 1).map (· - 1))) hrplen hrpnd hrpbound
  have hstruct := enumerated_zip_struct L R psLR p hpsLR hp hbl har
  simp only [isValidPermutation] at hacc
  set ψ := Function.invFunOn φ ↑L.varSet with hψdef
  set bp := (p.drop 1).map (· - 1) with hbpdef
  set rp := invertPerm bp with hrpdef
  set lb := (reorderAtoms L rp).body with hlbdef
  rw [show (reorderAtoms L rp).headAtom = L.headAtom from rfl] at hacc
  have hLSlen : (lb ++ [L.headAtom]).length = L.body.length + 1 := by
    rw [List.length_append, hBlen]
    rfl
  have hRSlen : (R.body ++ [R.headAtom]).length = L.body.length + 1 := by
    rw [List.length_append, ← hbl]
    rfl
  obtain ⟨hLSle, hmono, hpairs, hchg⟩ := matchAtoms_true_spec
    (lb ++ [L.headAtom]) (R.body ++ [R.headAtom]) true (fun _ => "") φ
    (by
      intro la hla a ha
      refine noNil_args L hnilL la ?_ a ha
      rcases List.mem_append.mp hla with h | h
      · exact Or.inl (hBperm.mem_iff.mp h)
      · exact Or.inr (by simpa using h))
    (by
      intro ra hra v hv
      refine varNamesNonempty_args R hneR ra ?_ v hv
      rcases List.mem_append.mp hra with h | h
      · exact Or.inl h
      · exact Or.inr (by simpa using h))
    hacc
  have hzipLR : (lb ++ [L.headAtom]).zip (R.body ++ [R.headAtom])
      = lb.zip R.body ++ [(L.headAtom, R.headAtom)] := by
    rw [List.zip_append (by rw [hBlen, hbl])]
    rfl
  -- the inverse permutation
  set q := (0 : Nat) :: rp.map (· + 1) with hqdef
  have hbq : (q.drop 1).map (· - 1) = rp := by
    rw [hqdef]
    show (rp.map (· + 1)).map (· - 1) = rp
    exact map_sub_one_map_add_one rp
  have hrq : invertPerm rp = bp := by
    rw [hrpdef]
    exact invertPerm_invertPerm bp L.body.length hbplen hbpnd hbpbound
  have hqlen : q.length = R.body.length + 1 := by
    rw [hqdef, List.length_cons, List.length_map, hrplen, hbl]
  have hqget0 : q.getD 0 0 = 0 := by rw [hqdef]; rfl
  have hqgetk : ∀ k, k < L.body.length → q.getD (k + 1) 0 = rp.getD k 0 + 1 := by
    intro k hk
    rw [hqdef]
    show (rp.map (· + 1)).getD k 0 = rp.getD k 0 + 1
    rw [List.getD_eq_getElem _ _ (by rw [List.length_map, hrplen]; omega),
      List.getElem_map, List.getD_eq_getElem rp 0 (by omega)]
  have hqmem : q ∈ psRL := by
    apply (mem_extractPermutations_iff (permMatrix R L)
      (by rw [permMatrix_length]; omega) hpsRL q).mpr
    rw [permMatrix_length]
    constructor
    · refine perm_range_of_nodup q (R.body.length + 1) ?_ hqlen ?_
      · apply nodup_of_getD_inj
        intro i j hi hj he
        rw [hqlen, ← hbl] at hi hj
        match i, j with
        | 0, 0 => rfl
        | 0, j' + 1 =>
          rw [hqget0, hqgetk j' (by omega)] at he
          omega
        | i' + 1, 0 =>
          rw [hqget0, hqgetk i' (by omega)] at he
          omega
        | i' + 1, j' + 1 =>
          rw [hqgetk i' (by omega), hqgetk j' (by omega)] at he
          have he' : rp.getD i' 0 = rp.getD j' 0 := by omega
          have h1 := hbr i' (by omega)
          have h2 := hbr j' (by omega)
          rw [he'] at h1
          rw [h1] at h2
          omega
      · intro x hx
        rw [hqdef] at hx
        rcases List.mem_cons.mp hx with rfl | hx'
        · omega
        · rcases List.mem_map.mp hx' with ⟨y, hy, rfl⟩
          rcases List.mem_iff_getElem.mp hy with ⟨k, hk, hget⟩
          have hk' : k < L.body.length := by rw [hrplen] at hk; exact hk
          have := hrpbound k hk'
          rw [List.getD_eq_getElem rp 0 hk, hget] at this
          omega
    · intro i hi
      match i with
      | 0 =>
        rw [hqget0, permMatrix_entry R L (by omega) (by omega)]
        rw [if_pos ⟨rfl, rfl⟩]
      | k + 1 =>
        have hk : k < L.body.length := by omega
        rw [hqgetk k hk]
        have hjb : rp.getD k 0 + 1 < R.body.length + 1 := by
          have := hrpbound k hk
          omega
        rw [permMatrix_entry R L (by omega) hjb]
        rw [if_neg (by omega)]
        have hmv := hbpmove (rp.getD k 0) (hrpbound k hk)
        rw [hbr k hk] at hmv
        obtain ⟨nm, largs, rargs, hatomL, hatomR⟩ :=
          isValidMove_succ_names L R _ k hmv
        have hmv2 : isValidMove R (k + 1) L (rp.getD k 0 + 1) = true :=
          isValidMove_succ_of_atoms R L k (rp.getD k 0) nm rargs largs hatomR hatomL
        rw [if_pos ⟨by omega, by omega, hmv2⟩]
  -- the reordered right body for the inverse run
  have hbpboundD : ∀ k, k < R.body.length → bp.getD k 0 < R.body.length := by
    intro k hk
    have hmem : bp.getD k 0 ∈ bp := getD_mem bp (by rw [hbplen, hbl]; omega) 0
    have := hbpbound _ hmem
    omega
  obtain ⟨hB2perm, hB2len, hB2get⟩ := reordered_body_facts R bp
    (by rw [hbplen, hbl]) hbpnd hbpboundD
  set lb2 := (reorderAtoms R bp).body with hlb2def
  have hzipRL : (lb2 ++ [R.headAtom]).zip (L.body ++ [L.headAtom])
      = lb2.zip L.body ++ [(R.headAtom, L.headAtom)] := by
    rw [List.zip_append (by rw [hB2len, hbl])]
    rfl
  have hpairs2 : ∀ pr ∈ (lb2 ++ [R.headAtom]).zip (L.body ++ [L.headAtom]),
      (∃ nm largs nm' rargs, pr.1 = Literal.atom nm largs
        ∧ pr.2 = Literal.atom nm' rargs)
      ∧ pr.1.args.length ≤ pr.2.args.length
      ∧ ∀ apr ∈ pr.1.args.zip pr.2.args, pairOK ψ apr := by
    intro pr hpr
    rw [hzipRL] at hpr
    rcases List.mem_append.mp hpr with h | h
    · rw [mem_zip_iff_getElem lb2 L.body pr (by rw [hB2len, hbl])] at h
      obtain ⟨k, h1, h2, rfl⟩ := h
      have hk : k < L.body.length := h2
      have hbk : bp.getD k 0 < L.body.length := by
        have := hbpboundD k (by omega)
        omega
      have hkb : bp.getD k 0 < lb.length := by rw [hBlen]; omega
      have e2 : lb2[k] = R.body.getD (bp.getD k 0) (Literal.atom "" []) := by
        rw [← List.getD_eq_getElem lb2 (Literal.atom "" []) h1]
        exact hB2get k (by omega)
      have e3 : lb[bp.getD k 0] = L.body.getD k (Literal.atom "" []) := by
        rw [← List.getD_eq_getElem lb (Literal.atom "" []) hkb]
        have hg := hBget (bp.getD k 0) hbk
        rw [hrb k hk] at hg
        exact hg
      have e4 : lb2[k] = R.body[bp.getD k 0] := by
        rw [e2, List.getD_eq_getElem R.body _ (by omega)]
      have e5 : L.body[k] = lb[bp.getD k 0] := by
        rw [e3, List.getD_eq_getElem L.body _ hk]
      have hswp : ((L.body[k], lb2[k]) : Literal × Literal) ∈ lb.zip R.body := by
        rw [e4, e5]
        exact pair_mem_zip lb R.body (bp.getD k 0) hkb (by omega)
      obtain ⟨nm, largsS, rargsS, hs1, hs2, hs3⟩ := hstruct _ hswp
      have hs1' : L.body[k] = Literal.atom nm largsS := hs1
      have hs2' : lb2[k] = Literal.atom nm rargsS := hs2
      have hswpfull : ((L.body[k], lb2[k]) : Literal × Literal)
          ∈ (lb ++ [L.headAtom]).zip (R.body ++ [R.headAtom]) := by
        rw [hzipLR]
        exact List.mem_append.mpr (Or.inl hswp)
      have hpok := (hpairs _ hswpfull).2
      refine ⟨⟨nm, rargsS, nm, largsS, hs2', hs1'⟩, ?_, ?_⟩
      · rw [hs1', hs2']
        show rargsS.length ≤ largsS.length
        omega
      · intro apr hapr
        rw [hs1', hs2'] at hapr
        obtain ⟨a1, a2⟩ := apr
        have hapr2 : ((a1, a2) : Arg × Arg) ∈ rargsS.zip largsS := hapr
        have hsw : ((a2, a1) : Arg × Arg) ∈ largsS.zip rargsS := by
          have := swap_mem_zip largsS rargsS hs3 (a1, a2) hapr2
          simpa using this
        have hpokA : pairOK φ (a2, a1) := by
          refine hpok (a2, a1) ?_
          rw [hs1', hs2']
          exact hsw
        have ha2 : a2 ∈ largsS := (List.of_mem_zip hsw).1
        refine pairOK_swap φ ψ (a2, a1) ?_ hpokA
        intro u hu
        have hu2 : Arg.var u ∈ largsS := by rw [← hu]; exact ha2
        have huv : u ∈ L.varSet := by
          rw [varSet_mem_iff]
          refine ⟨Literal.atom nm largsS, Or.inl ?_, hu2⟩
          rw [← hs1']
          exact List.getElem_mem hk
        exact hψ u huv
    · have he : pr = (R.headAtom, L.headAtom) := by simpa using h
      subst he
      refine ⟨⟨R.headName, R.headArgs, L.headName, L.headArgs, rfl, rfl⟩, ?_, ?_⟩
      · show R.headArgs.length ≤ L.headArgs.length
        omega
      · intro apr hapr
        have hheadfull : ((L.headAtom, R.headAtom) : Literal × Literal)
            ∈ (lb ++ [L.headAtom]).zip (R.body ++ [R.headAtom]) := by
          rw [hzipLR]
          exact List.mem_append.mpr (Or.inr (by simp))
        have hpok := (hpairs _ hheadfull).2
        obtain ⟨a1, a2⟩ := apr
        have hapr' : ((a1, a2) : Arg × Arg) ∈ R.headArgs.zip L.headArgs := hapr
        have hsw : ((a2, a1) : Arg × Arg) ∈ L.headArgs.zip R.headArgs := by
          have := swap_mem_zip L.headArgs R.headArgs hha (a1, a2) hapr'
          simpa using this
        have hpokA : pairOK φ (a2, a1) := hpok (a2, a1) hsw
        have ha2 : a2 ∈ L.headArgs := (List.of_mem_zip hsw).1
        refine pairOK_swap φ ψ (a2, a1) ?_ hpokA
        intro u hu
        have hu2 : Arg.var u ∈ L.headArgs := by rw [← hu]; exact ha2
        have huv : u ∈ L.varSet := by
          rw [varSet_mem_iff]
          exact ⟨L.headAtom, Or.inr rfl, hu2⟩
        exact hψ u huv
  obtain ⟨φ2, hdone⟩ := matchAtoms_of_pairOK ψ (lb2 ++ [R.headAtom])
    (L.body ++ [L.headAtom]) (fun _ => "")
    (le_of_eq (by simp [hB2len, hbl]))
    hpairs2 (fun x hx => absurd rfl hx)
  refine ⟨q, hqmem, φ2, ?_⟩
  simp only [isValidPermutation]
  rw [hbq, hrq]
  rw [show (reorderAtoms R bp).headAtom = R.headAtom from rfl]
  exact hdone

/-- On an enumerated permutation of clauses that pass the precheck and
whose name-matched body atoms share an arity, the mapping check never
faults. -/
theorem enumerated_ne_none (L R : Clause) (psLR : List (List Nat)) (p : List Nat)
    (hpre : precheck L R = true)
    (hps : extractPermutations (permMatrix L R) = some psLR) (hp : p ∈ psLR)
    (har : bodyAritiesOk L R = true) :
    isValidPermutation L R p ≠ none := by
  have hpre' := hpre
  simp only [precheck, Bool.and_eq_true, beq_iff_eq] at hpre'
  obtain ⟨⟨⟨⟨hvcL, hvcR⟩, hbl⟩, hha⟩, hcard⟩ := hpre'
  have hchar := (mem_extractPermutations_iff (permMatrix L R)
    (by rw [permMatrix_length]; omega) hps p).mp hp
  rw [permMatrix_length] at hchar
  obtain ⟨hperm, hval⟩ := hchar
  obtain ⟨hbplen, hbpnd, hbpbound, hbpmove⟩ := enumerated_bp_facts L R p hperm hval
  obtain ⟨hrplen, hrpbound, hrb, hbr, hrpnd⟩ := perm_inverse_facts
    ((p.drop 1).map (· - 1)) L.body.length hbplen hbpnd hbpbound
  obtain ⟨hBperm, hBlen, hBget⟩ := reordered_body_facts L
    (invertPerm ((p.drop 1).map (· - 1))) hrplen hrpnd hrpbound
  have hstruct := enumerated_zip_struct L R psLR p hps hp hbl har
  simp only [isValidPermutation]
  set bp := (p.drop 1).map (· - 1) with hbpdef
  set rp := invertPerm bp with hrpdef
  set lb := (reorderAtoms L rp).body with hlbdef
  rw [show (reorderAtoms L rp).headAtom = L.headAtom from rfl]
  have hzipLR : (lb ++ [L.headAtom]).zip (R.body ++ [R.headAtom])
      = lb.zip R.body ++ [(L.headAtom, R.headAtom)] := by
    rw [List.zip_append (by rw [hBlen, hbl])]
    rfl
  obtain ⟨r, hr⟩ := matchAtoms_ne_none (lb ++ [L.headAtom])
    (R.body ++ [R.headAtom]) true (fun _ => "")
    (le_of_eq (by simp [hBlen, hbl]))
    (by
      intro pr hpr
      rw [hzipLR] at hpr
      rcases List.mem_append.mp hpr with h | h
      · obtain ⟨nm, largs, rargs, h1, h2, h3⟩ := hstruct pr h
        refine ⟨⟨nm, largs, nm, rargs, h1, h2⟩, ?_⟩
        rw [h1, h2]
        show largs.length ≤ rargs.length
        omega
      · have he : pr = (L.headAtom, R.headAtom) := by simpa using h
        subst he
        refine ⟨⟨L.headName, L.headArgs, R.headName, R.headArgs, rfl, rfl⟩, ?_⟩
        show L.headArgs.length ≤ R.headArgs.length
        omega)
  rw [hr]
  simp

/-- C2, evaluation at the failing input.  `reduceClauseBodies` inserts the
earlier index `j` (not the duplicate's index `i`) into `redundantPositions`,
so for body `B, C, B` it keeps `C, B` — not the subsequence of first
occurrences `B, C` — and for body `B, B, B` it removes only position 0,
leaving the duplicate `B, B`, contrary to its own documentation
("Remove repeated literals within a clause"). -/
theorem reduceClauseBodies_failing_input_eval :
    redundantPositions
        [.atom "B" [.var "x"], .atom "C" [.var "x"], .atom "B" [.var "x"]]
      = {0} ∧
    (minimiseClause ⟨"A", [.var "x"],
        [.atom "B" [.var "x"], .atom "C" [.var "x"], .atom "B" [.var "x"]]⟩).body
      = [.atom "C" [.var "x"], .atom "B" [.var "x"]] ∧
    (minimiseClause ⟨"A", [.var "x"],
        [.atom "B" [.var "x"], .atom "B" [.var "x"], .atom "B" [.var "x"]]⟩).body
      = [.atom "B" [.var "x"], .atom "B" [.var "x"]] := by
  decide

/-- C3, counterexample.  Three of the four sub-passes are not idempotent:
the second application reports `changed = true` again on each of the
concrete programs below.  (Body deduplicator: `A(x) :- B(x),B(x),B(x).`
loses one literal per run.  Local equivalence reducer: deleting a duplicate
of `A(v,z,z).` (first variable named `""`) reorders the relation's clauses,
and the oracle is not symmetric, so a new deletion fires on the second run.
Singleton unifier: merging `T` into `S` rewrites `B2(x) :- T(x).` into
`B2(x) :- S(x).`, which only then becomes equivalent to
`A2(x) :- S(x).`.) -/
theorem subpasses_not_idempotent_counterexample :
    (reduceClauseBodies (reduceClauseBodies ⟨⟨["A", "B"],
        [⟨"A", [.var "x"], [.atom "B" [.var "x"], .atom "B" [.var "x"],
          .atom "B" [.var "x"]]⟩]⟩, fun _ => false⟩).1).2 = true ∧
    ((reduceLocallyEquivalentClauses ⟨⟨["A"],
        [⟨"A", [.var "", .var "z", .var "z"], []⟩,
         ⟨"A", [.var "x", .var "x", .var "y"], []⟩,
         ⟨"A", [.var "", .var "z", .var "z"], []⟩]⟩, fun _ => false⟩).bind
      (fun r => reduceLocallyEquivalentClauses r.1)).map (fun r => r.2)
      = some true ∧
    ((reduceSingletonRelations ⟨⟨["S", "T", "A2", "B2", "P"],
        [⟨"S", [.var "x"], [.atom "P" [.var "x"]]⟩,
         ⟨"T", [.var "x"], [.atom "P" [.var "x"]]⟩,
         ⟨"A2", [.var "x"], [.atom "S" [.var "x"]]⟩,
         ⟨"B2", [.var "x"], [.atom "T" [.var "x"]]⟩]⟩, fun _ => false⟩).bind
      (fun r => reduceSingletonRelations r.1)).map (fun r => r.2)
      = some true := by
  decide

/-!  ## Idempotence of the self-implication filter (for C3)  -/

theorem removeClauseFromList_cons_of_ne (cs : List Clause) (x c : Clause)
    (h : ¬ x = c) :
    removeClauseFromList (x :: cs) c = x :: removeClauseFromList cs c := by
  simp [removeClauseFromList, h]

theorem foldl_remove_cons_of_ne (ys : List Clause) (x : Clause) (xs : List Clause)
    (h : ∀ y ∈ ys, ¬ x = y) :
    ys.foldl removeClauseFromList (x :: xs)
      = x :: ys.foldl removeClauseFromList xs := by
  induction ys generalizing xs with
  | nil => rfl
  | cons y ys ih =>
    simp only [List.foldl_cons]
    rw [removeClauseFromList_cons_of_ne xs x y (h y (by simp))]
    exact ih _ (fun y' hy' => h y' (by simp [hy']))

theorem foldl_remove_filter (p : Clause → Bool) (l : List Clause) :
    (l.filter p).foldl removeClauseFromList l = l.filter (fun c => !p c) := by
  induction l with
  | nil => rfl
  | cons x xs ih =>
    by_cases hx : p x
    · rw [List.filter_cons_of_pos hx]
      simp only [List.foldl_cons]
      rw [show removeClauseFromList (x :: xs) x = xs from by
        simp [removeClauseFromList]]
      rw [ih, List.filter_cons_of_neg (by simp [hx])]
    · rw [List.filter_cons_of_neg (by simp [hx])]
      rw [foldl_remove_cons_of_ne _ x xs (fun y hy => by
        rw [List.mem_filter] at hy
        intro he
        rw [← he] at hy
        exact hx hy.2)]
      rw [ih, List.filter_cons_of_pos (by simp [hx])]

theorem foldl_removeClause_program (cs : List Clause) (prog : Program) :
    cs.foldl Program.removeClause prog
      = { relations := prog.relations,
          clauses := cs.foldl removeClauseFromList prog.clauses } := by
  induction cs generalizing prog with
  | nil => rfl
  | cons c cs ih => simp [List.foldl_cons, ih, Program.removeClause]

theorem removeRedundantClauses_eq_filter (tu : TranslationUnit) :
    removeRedundantClauses tu
      = (⟨⟨tu.program.relations,
            tu.program.clauses.filter (fun c => !isRedundant c)⟩, tu.io⟩,
         !(tu.program.clauses.filter isRedundant).isEmpty) := by
  simp only [removeRedundantClauses]
  rw [foldl_removeClause_program, foldl_remove_filter]

/-- C3, amended: of the four sub-passes, the Self-Implication Filter is the
idempotent one: applying `removeRedundantClauses` to its own output leaves
the translation unit unchanged and reports `changed = false`.  (The
counterexample theorem shows each of the other three sub-passes reporting a
change on its second application.) -/
theorem removeRedundantClauses_idempotent (tu : TranslationUnit) :
    removeRedundantClauses (removeRedundantClauses tu).1
      = ((removeRedundantClauses tu).1, false) := by
  rw [removeRedundantClauses_eq_filter tu, removeRedundantClauses_eq_filter]
  simp [List.filter_filter]

/-!  ## The singleton unifier never involves an I/O relation (C9)  -/

theorem singletonClauses_spec (tu : TranslationUnit) :
    ∀ c ∈ singletonClauses tu,
      tu.io c.headName = false ∧ c.headName ∈ tu.program.relations := by
  intro c hc
  unfold singletonClauses at hc
  rw [List.mem_filterMap] at hc
  obtain ⟨rel, hrel, hcond⟩ := hc
  by_cases hgood : (!tu.io rel && (getClauses tu.program rel).length == 1) = true
  · rw [if_pos hgood] at hcond
    have hmem : c ∈ getClauses tu.program rel := by
      cases hcl : getClauses tu.program rel with
      | nil => rw [hcl] at hcond; simp at hcond
      | cons x xs =>
        rw [hcl] at hcond
        simp at hcond
        simp [hcond]
    have hname : c.headName = rel := by
      unfold getClauses at hmem
      rw [List.mem_filter] at hmem
      exact beq_iff_eq.mp hmem.2
    rw [Bool.and_eq_true, Bool.not_eq_true'] at hgood
    rw [hname]
    exact ⟨hgood.1, hrel⟩
  · rw [if_neg hgood] at hcond
    exact Option.noConfusion hcond

theorem mem_insertClause (red : List Clause) (x c : Clause)
    (h : c ∈ insertClause red x) : c ∈ red ∨ c = x := by
  unfold insertClause at h
  split at h
  · exact Or.inl h
  · rcases List.mem_append.mp h with h' | h'
    · exact Or.inl h'
    · exact Or.inr (List.mem_singleton.mp h')

theorem mem_insertCanon (canon : List (QName × QName)) (kv kv' : QName × QName)
    (h : kv' ∈ insertCanon canon kv) : kv' ∈ canon ∨ kv' = kv := by
  unfold insertCanon at h
  split at h
  · exact Or.inl h
  · rcases List.mem_append.mp h with h' | h'
    · exact Or.inl h'
    · exact Or.inr (List.mem_singleton.mp h')

theorem singletonPairsInner_preserves (Q : QName → Prop) (first : Clause)
    (hfirst : Q first.headName) :
    ∀ (pending red : List Clause) (canon : List (QName × QName))
      (red' : List Clause) (canon' : List (QName × QName)),
    (∀ c ∈ pending, Q c.headName) →
    (∀ c ∈ red, Q c.headName) →
    (∀ kv ∈ canon, Q kv.1 ∧ Q kv.2) →
    singletonPairsInner first pending red canon = some (red', canon') →
    (∀ c ∈ red', Q c.headName) ∧ (∀ kv ∈ canon', Q kv.1 ∧ Q kv.2) := by
  intro pending
  induction pending with
  | nil =>
    intro red canon red' canon' _ hred hcanon h
    unfold singletonPairsInner at h
    simp only [Option.some.injEq, Prod.mk.injEq] at h
    rw [← h.1, ← h.2]
    exact ⟨hred, hcanon⟩
  | cons second rest ih =>
    intro red canon red' canon' hpend hred hcanon h
    unfold singletonPairsInner at h
    rcases horacle : areBijectivelyEquivalent first second with _ | b
    · rw [horacle] at h
      exact Option.noConfusion h
    · rw [horacle] at h
      cases b with
      | true =>
        refine ih _ _ red' canon' (fun c hc => hpend c (by simp [hc])) ?_ ?_ h
        · intro c hc
          rcases mem_insertClause _ _ _ hc with h' | h'
          · exact hred c h'
          · exact h' ▸ hpend second (by simp)
        · intro kv hkv
          rcases mem_insertCanon _ _ _ hkv with h' | h'
          · exact hcanon kv h'
          · rw [h']
            exact ⟨hpend second (by simp), hfirst⟩
      | false =>
        exact ih _ _ red' canon' (fun c hc => hpend c (by simp [hc])) hred hcanon h

theorem singletonPairsOuter_preserves (Q : QName → Prop) :
    ∀ (pending red : List Clause) (canon : List (QName × QName))
      (red' : List Clause) (canon' : List (QName × QName)),
    (∀ c ∈ pending, Q c.headName) →
    (∀ c ∈ red, Q c.headName) →
    (∀ kv ∈ canon, Q kv.1 ∧ Q kv.2) →
    singletonPairsOuter pending red canon = some (red', canon') →
    (∀ c ∈ red', Q c.headName) ∧ (∀ kv ∈ canon', Q kv.1 ∧ Q kv.2) := by
  intro pending
  induction pending with
  | nil =>
    intro red canon red' canon' _ hred hcanon h
    unfold singletonPairsOuter at h
    simp only [Option.some.injEq, Prod.mk.injEq] at h
    rw [← h.1, ← h.2]
    exact ⟨hred, hcanon⟩
  | cons first rest ih =>
    intro red canon red' canon' hpend hred hcanon h
    unfold singletonPairsOuter at h
    split at h
    · exact ih _ _ red' canon' (fun c hc => hpend c (by simp [hc])) hred hcanon h
    · rcases hinner : singletonPairsInner first rest red canon with _ | ⟨red₁, canon₁⟩
      · rw [hinner] at h
        exact Option.noConfusion h
      · rw [hinner] at h
        have hmid := singletonPairsInner_preserves Q first
          (hpend first (by simp)) rest red canon red₁ canon₁
          (fun c hc => hpend c (by simp [hc])) hred hcanon hinner
        exact ih _ _ red' canon' (fun c hc => hpend c (by simp [hc]))
          hmid.1 hmid.2 h

theorem singleton_fold_relations (red : List Clause) (prog : Program) :
    (red.foldl (fun p c => (p.removeClause c).removeRelation c.headName)
        prog).relations
      = red.foldl (fun rs c => rs.filter (fun r => r ≠ c.headName))
          prog.relations := by
  induction red generalizing prog with
  | nil => rfl
  | cons c cs ih =>
    simp only [List.foldl_cons]
    rw [ih]
    rfl

theorem mem_fold_filter_ne (red : List Clause) (rels : List QName) (name : QName)
    (h : ∀ c ∈ red, c.headName ≠ name) :
    name ∈ red.foldl (fun rs c => rs.filter (fun r => r ≠ c.headName)) rels
      ↔ name ∈ rels := by
  induction red generalizing rels with
  | nil => exact Iff.rfl
  | cons c cs ih =>
    simp only [List.foldl_cons]
    rw [ih _ (fun c' hc' => h c' (by simp [hc']))]
    simp only [List.mem_filter, decide_eq_true_eq]
    constructor
    · exact fun h' => h'.1
    · exact fun h' => ⟨h', fun he => h c (by simp) he.symm⟩

/-- C9: the Singleton Relation Unifier never involves an I/O relation.  If
the I/O oracle answers true for `name`, then no clause of relation `name`
is marked redundant, `name` is neither a key (removed name) nor a value
(canonical survivor name) of the canonical map, and `name`'s relation
declaration is in the output program if and only if it was in the input. -/
theorem singleton_unifier_never_involves_io (tu tu' : TranslationUnit)
    (chg : Bool) (red : List Clause) (canon : List (QName × QName))
    (name : QName) (hio : tu.io name = true)
    (ha : singletonAnalysis tu = some (red, canon))
    (h : reduceSingletonRelations tu = some (tu', chg)) :
    (∀ c ∈ red, c.headName ≠ name)
    ∧ (∀ kv ∈ canon, kv.1 ≠ name ∧ kv.2 ≠ name)
    ∧ (name ∈ tu.program.relations ↔ name ∈ tu'.program.relations) := by
  have hQ := singletonPairsOuter_preserves (fun q => tu.io q = false)
    (singletonClauses tu) [] [] red canon
    (fun c hc => (singletonClauses_spec tu c hc).1)
    (by simp) (by simp) ha
  have hredne : ∀ c ∈ red, c.headName ≠ name := by
    intro c hc he
    have := hQ.1 c hc
    rw [he, hio] at this
    exact Bool.noConfusion this
  refine ⟨hredne, ?_, ?_⟩
  · intro kv hkv
    have h1 := (hQ.2 kv hkv).1
    have h2 := (hQ.2 kv hkv).2
    constructor
    · intro he
      rw [he, hio] at h1
      exact Bool.noConfusion h1
    · intro he
      rw [he, hio] at h2
      exact Bool.noConfusion h2
  · unfold reduceSingletonRelations at h
    rw [ha] at h
    simp only [Option.some.injEq, Prod.mk.injEq] at h
    rw [← h.1]
    simp only
    rw [singleton_fold_relations]
    exact (mem_fold_filter_ne red tu.program.relations name hredne).symm

/-- C9, witness: a concrete translation unit with an I/O relation `io1` and
two mergeable non-I/O singletons `S` and `T`. -/
theorem singleton_unifier_never_involves_io_witness :
    (exampleTU.io "io1" = true
      ∧ singletonAnalysis exampleTU
          = some ([⟨"T", [.var "x"], [.atom "P" [.var "x"]]⟩], [("T", "S")])
      ∧ reduceSingletonRelations exampleTU = some (exampleTUAfter, true))
    ∧ ((∀ c ∈ [(⟨"T", [.var "x"], [.atom "P" [.var "x"]]⟩ : Clause)],
          c.headName ≠ "io1")
      ∧ (∀ kv ∈ [(("T", "S") : QName × QName)], kv.1 ≠ "io1" ∧ kv.2 ≠ "io1")
      ∧ ("io1" ∈ exampleTU.program.relations
          ↔ "io1" ∈ exampleTUAfter.program.relations)) :=
  ⟨⟨rfl, by decide, rfl⟩,
    singleton_unifier_never_involves_io exampleTU exampleTUAfter true _ _
      "io1" rfl (by decide) rfl⟩

/-- C4, counterexample.  The oracle is not symmetric: with `L = A(x,x,y).`
and `R = A(v,z,z).` where `v` is a variable whose name is the empty string
(the variable map's "unassigned" sentinel), `oracle(L,R) = true` but
`oracle(R,L) = false`. -/
theorem oracle_not_symmetric_counterexample :
    areBijectivelyEquivalent ⟨"A", [.var "x", .var "x", .var "y"], []⟩
        ⟨"A", [.var "", .var "z", .var "z"], []⟩ = some true ∧
    areBijectivelyEquivalent ⟨"A", [.var "", .var "z", .var "z"], []⟩
        ⟨"A", [.var "x", .var "x", .var "y"], []⟩ = some false := by
  decide

/-- C4, amended: the oracle is symmetric for clause pairs in which no nil
constant occurs (the nil branch can set `validMapping = false` without
breaking, and a later constant pair resets it), every variable name is
non-empty (the empty string is the variable map's unassigned sentinel), and
body atoms sharing a qualified name share an arity (otherwise the lockstep
argument walk reads out of bounds). -/
theorem oracle_symmetric_under_side_conditions (L R : Clause)
    (hnilL : L.noNil = true) (hnilR : R.noNil = true)
    (hneL : L.varNamesNonempty = true) (hneR : R.varNamesNonempty = true)
    (har : bodyAritiesOk L R = true) :
    areBijectivelyEquivalent L R = areBijectivelyEquivalent R L := by
  have harRL := bodyAritiesOk_symm L R har
  unfold areBijectivelyEquivalent
  by_cases hv : isValidClause L = true ∧ isValidClause R = true
  · obtain ⟨hvL, hvR⟩ := hv
    have hgL : ¬ ¬ (isValidClause L && isValidClause R) = true :=
      not_not_intro (by rw [hvL, hvR]; rfl)
    have hgR : ¬ ¬ (isValidClause R && isValidClause L) = true :=
      not_not_intro (by rw [hvL, hvR]; rfl)
    rw [if_neg hgL, if_neg hgR]
    by_cases hbl : L.body.length = R.body.length
    · have hgbL : ¬ (L.body.length ≠ R.body.length) := not_ne_iff.mpr hbl
      have hgbR : ¬ (R.body.length ≠ L.body.length) := not_ne_iff.mpr hbl.symm
      rw [if_neg hgbL, if_neg hgbR]
      by_cases hha : L.headArgs.length = R.headArgs.length
      · have hghL : ¬ (L.headArgs.length ≠ R.headArgs.length) := not_ne_iff.mpr hha
        have hghR : ¬ (R.headArgs.length ≠ L.headArgs.length) :=
          not_ne_iff.mpr hha.symm
        rw [if_neg hghL, if_neg hghR]
        by_cases hcard : L.varSet.card = R.varSet.card
        · have hgcL : ¬ (L.varSet.card ≠ R.varSet.card) := not_ne_iff.mpr hcard
          have hgcR : ¬ (R.varSet.card ≠ L.varSet.card) :=
            not_ne_iff.mpr hcard.symm
          rw [if_neg hgcL, if_neg hgcR]
          have hpre : precheck L R = true := by
            simp only [precheck, Bool.and_eq_true, beq_iff_eq]
            exact ⟨⟨⟨⟨hvL, hvR⟩, hbl⟩, hha⟩, hcard⟩
          have hpreRL := precheck_symm L R hpre
          obtain ⟨psLR, hpsLR⟩ : ∃ ps, extractPermutations (permMatrix L R)
              = some ps :=
            ⟨_, extractPermutations_eq_dfs _ (by rw [permMatrix_length]; omega)⟩
          obtain ⟨psRL, hpsRL⟩ : ∃ ps, extractPermutations (permMatrix R L)
              = some ps :=
            ⟨_, extractPermutations_eq_dfs _ (by rw [permMatrix_length]; omega)⟩
          rw [hpsLR, hpsRL]
          dsimp only
          have hnfLR : ∀ p ∈ psLR, isValidPermutation L R p ≠ none :=
            fun p hp => enumerated_ne_none L R psLR p hpre hpsLR hp har
          have hnfRL : ∀ q ∈ psRL, isValidPermutation R L q ≠ none :=
            fun q hq => enumerated_ne_none R L psRL q hpreRL hpsRL hq harRL
          have hiff : (firstValid L R psLR = some true)
              ↔ (firstValid R L psRL = some true) := by
            rw [firstValid_true_iff L R psLR hnfLR,
              firstValid_true_iff R L psRL hnfRL]
            constructor
            · rintro ⟨p, hp, φ, hacc⟩
              exact accepted_transfer L R psLR psRL p φ hpre hpsLR hpsRL hp
                hacc har hnilL hneR
            · rintro ⟨qq, hq, ψ0, hacc⟩
              exact accepted_transfer R L psRL psLR qq ψ0 hpreRL hpsRL hpsLR hq
                hacc harRL hnilR hneL
          rcases firstValid_tf L R psLR hnfLR with h1 | h1 <;>
            rcases firstValid_tf R L psRL hnfRL with h2 | h2
          · rw [h1, h2]
          · exact absurd (hiff.mp h1) (by rw [h2]; simp)
          · exact absurd (hiff.mpr h2) (by rw [h1]; simp)
          · rw [h1, h2]
        · rw [if_pos hcard, if_pos (fun he => hcard he.symm)]
      · rw [if_pos hha, if_pos (fun he => hha he.symm)]
    · rw [if_pos hbl, if_pos (fun he => hbl he.symm)]
  · have hg1 : ¬ (isValidClause L && isValidClause R) = true := by
      simp only [Bool.and_eq_true]
      exact hv
    have hg2 : ¬ (isValidClause R && isValidClause L) = true := by
      simp only [Bool.and_eq_true]
      exact fun hc => hv ⟨hc.2, hc.1⟩
    rw [if_pos hg1, if_pos hg2]

/-- C4, witness: two admissible renamings of the same clause
(`A(x) :- P(x).` and `A(y) :- P(y).`) satisfying all three side conditions;
the oracle answers the same in both orders. -/
theorem oracle_symmetric_under_side_conditions_witness :
    (Clause.noNil ⟨"A", [.var "x"], [.atom "P" [.var "x"]]⟩ = true
      ∧ Clause.noNil ⟨"A", [.var "y"], [.atom "P" [.var "y"]]⟩ = true
      ∧ Clause.varNamesNonempty ⟨"A", [.var "x"], [.atom "P" [.var "x"]]⟩ = true
      ∧ Clause.varNamesNonempty ⟨"A", [.var "y"], [.atom "P" [.var "y"]]⟩ = true
      ∧ bodyAritiesOk ⟨"A", [.var "x"], [.atom "P" [.var "x"]]⟩
          ⟨"A", [.var "y"], [.atom "P" [.var "y"]]⟩ = true)
    ∧ areBijectivelyEquivalent ⟨"A", [.var "x"], [.atom "P" [.var "x"]]⟩
          ⟨"A", [.var "y"], [.atom "P" [.var "y"]]⟩
        = areBijectivelyEquivalent ⟨"A", [.var "y"], [.atom "P" [.var "y"]]⟩
          ⟨"A", [.var "x"], [.atom "P" [.var "x"]]⟩ :=
  ⟨⟨by decide, by decide, by decide, by decide, by decide⟩,
    oracle_symmetric_under_side_conditions
      ⟨"A", [.var "x"], [.atom "P" [.var "x"]]⟩
      ⟨"A", [.var "y"], [.atom "P" [.var "y"]]⟩
      (by decide) (by decide) (by decide) (by decide) (by decide)⟩

/-- C5: whenever any of the five admissibility conditions fails — a body
literal that is not an atom, a non-primitive argument, unequal body lengths,
unequal head arities, or unequal distinct-variable counts, in either clause
— `areBijectivelyEquivalent` returns `some false` (a defined `false`
answer, never the `none` that models an error). -/
theorem oracle_returns_false_on_admissibility_failure (L R : Clause)
    (h : L.body.all Literal.isAtom = false ∨ R.body.all Literal.isAtom = false
      ∨ L.allArgs.all (fun a => a.isVar || a.isConst) = false
      ∨ R.allArgs.all (fun a => a.isVar || a.isConst) = false
      ∨ L.body.length ≠ R.body.length
      ∨ L.headArgs.length ≠ R.headArgs.length
      ∨ L.varSet.card ≠ R.varSet.card) :
    areBijectivelyEquivalent L R = some false := by
  unfold areBijectivelyEquivalent
  by_cases h1 : (isValidClause L && isValidClause R) = true
  · rw [if_neg (not_not_intro h1)]
    by_cases h2 : L.body.length = R.body.length
    · rw [if_neg (not_not_intro h2)]
      by_cases h3 : L.headArgs.length = R.headArgs.length
      · rw [if_neg (not_not_intro h3)]
        by_cases h4 : L.varSet.card = R.varSet.card
        · exfalso
          rw [Bool.and_eq_true] at h1
          unfold isValidClause at h1
          rcases h1 with ⟨hL, hR⟩
          rw [Bool.and_eq_true] at hL hR
          rcases h with h | h | h | h | h | h | h
          · rw [hL.1] at h; exact Bool.noConfusion h
          · rw [hR.1] at h; exact Bool.noConfusion h
          · rw [hL.2] at h; exact Bool.noConfusion h
          · rw [hR.2] at h; exact Bool.noConfusion h
          · exact h h2
          · exact h h3
          · exact h h4
        · rw [if_pos h4]
      · rw [if_pos h3]
    · rw [if_pos h2]
  · rw [if_pos h1]

/-- C5, witness: a clause with a negated body literal fails the first
admissibility condition, and the oracle answers `some false` on it. -/
theorem oracle_returns_false_on_admissibility_failure_witness :
    (Clause.mk "A" [.var "x"] [.negation "B" [.var "x"]]).body.all
        Literal.isAtom = false ∧
    areBijectivelyEquivalent ⟨"A", [.var "x"], [.negation "B" [.var "x"]]⟩
        ⟨"A", [.var "x"], [.atom "B" [.var "x"]]⟩ = some false :=
  ⟨by decide,
    oracle_returns_false_on_admissibility_failure _ _ (Or.inl (by decide))⟩

/-- C6: the driver runs exactly the four sub-passes — body deduplicator,
self-implication filter, local equivalence reducer, singleton relation
unifier — once each, in that order, feeding each the previous output, and
returns the disjunction of their change flags; it does not iterate the
sequence. -/
theorem transform_runs_four_subpasses_once_in_order (tu tu' : TranslationUnit)
    (c : Bool) (h : transform tu = some (tu', c)) :
    ∃ tu1 c1 tu2 c2 tu3 c3 c4,
      reduceClauseBodies tu = (tu1, c1) ∧
      removeRedundantClauses tu1 = (tu2, c2) ∧
      reduceLocallyEquivalentClauses tu2 = some (tu3, c3) ∧
      reduceSingletonRelations tu3 = some (tu', c4) ∧
      c = (c1 || c2 || c3 || c4) := by
  simp only [transform] at h
  rcases h3 : reduceLocallyEquivalentClauses
      (removeRedundantClauses (reduceClauseBodies tu).1).1 with _ | ⟨tu3, c3⟩
  · rw [h3] at h; exact Option.noConfusion h
  · rw [h3] at h
    dsimp only at h
    rcases h4 : reduceSingletonRelations tu3 with _ | ⟨tu4, c4⟩
    · rw [h4] at h; exact Option.noConfusion h
    · rw [h4] at h
      dsimp only at h
      simp only [Option.some.injEq, Prod.mk.injEq] at h
      exact ⟨(reduceClauseBodies tu).1, (reduceClauseBodies tu).2,
        (removeRedundantClauses (reduceClauseBodies tu).1).1,
        (removeRedundantClauses (reduceClauseBodies tu).1).2, tu3, c3, c4,
        rfl, rfl, h3, by rw [h4, h.1], h.2.symm⟩

/-- C6, witness: the driver applied to the empty translation unit. -/
theorem transform_runs_four_subpasses_once_in_order_witness :
    transform ⟨⟨[], []⟩, fun _ => false⟩
      = some (⟨⟨[], []⟩, fun _ => false⟩, false) ∧
    ∃ tu1 c1 tu2 c2 tu3 c3 c4,
      reduceClauseBodies ⟨⟨[], []⟩, fun _ => false⟩ = (tu1, c1) ∧
      removeRedundantClauses tu1 = (tu2, c2) ∧
      reduceLocallyEquivalentClauses tu2 = some (tu3, c3) ∧
      reduceSingletonRelations tu3 = some (⟨⟨[], []⟩, fun _ => false⟩, c4) ∧
      false = (c1 || c2 || c3 || c4) :=
  ⟨rfl, transform_runs_four_subpasses_once_in_order _ _ _ rfl⟩

/-- C8, counterexample.  On the empty matrix `extractPermutations` does not
return a one-element collection holding the empty permutation: it performs
an out-of-bounds read of `validMoves[0]` (modelled by `none`). -/
theorem extractPermutations_empty_matrix_counterexample :
    ¬ ∃ l, extractPermutations [] = some l ∧ l = [[]] := by
  rintro ⟨l, hl, -⟩
  have h : extractPermutations [] = none := rfl
  rw [h] at hl
  exact Option.noConfusion hl

/-- C8, amended: on the empty matrix (`n = 0`), `todoStack.push(validMoves[0])`
reads the empty `validMoves` vector out of bounds, which the embedding
models as the fault value `none` — no collection is returned at all. -/
theorem extractPermutations_empty_matrix_faults :
    extractPermutations [] = none := rfl

/-- C10, counterexample.  Two concrete oracle successes whose accepted
left-to-right variable map is not a bijection between the distinct variable
names, although equal-named atoms have equal arities and the precheck
passed.  First: `L = A(x,x,y).`, `R = A(v,z,z).` with `v` named by the empty
string — the map sends both `x` and `y` to `z` and nothing to `""`.
Second (all names non-empty): `L = A(nil,x,y,"s").`, `R = A(w,u,u,"s").` —
the nil/`w` mismatch sets `validMapping = false` without breaking, the later
string-constant pair resets it to `true`, and the accepted map sends both
`x` and `y` to `u` and nothing to `w`. -/
theorem mapping_not_bijective_counterexample :
    (∃ φ, isValidPermutation ⟨"A", [.var "x", .var "x", .var "y"], []⟩
          ⟨"A", [.var "", .var "z", .var "z"], []⟩ [0] = some (true, φ) ∧
        φ "x" = "z" ∧ φ "y" = "z") ∧
    precheck ⟨"A", [.var "x", .var "x", .var "y"], []⟩
        ⟨"A", [.var "", .var "z", .var "z"], []⟩ = true ∧
    bodyAritiesOk ⟨"A", [.var "x", .var "x", .var "y"], []⟩
        ⟨"A", [.var "", .var "z", .var "z"], []⟩ = true ∧
    extractPermutations (permMatrix ⟨"A", [.var "x", .var "x", .var "y"], []⟩
        ⟨"A", [.var "", .var "z", .var "z"], []⟩) = some [[0]] ∧
    (∃ φ, isValidPermutation ⟨"A", [.nilConst, .var "x", .var "y", .strConst "s"], []⟩
          ⟨"A", [.var "w", .var "u", .var "u", .strConst "s"], []⟩ [0]
          = some (true, φ) ∧ φ "x" = "u" ∧ φ "y" = "u") ∧
    precheck ⟨"A", [.nilConst, .var "x", .var "y", .strConst "s"], []⟩
        ⟨"A", [.var "w", .var "u", .var "u", .strConst "s"], []⟩ = true ∧
    (Clause.mk "A" [.nilConst, .var "x", .var "y", .strConst "s"] []).varNamesNonempty
      = true ∧
    (Clause.mk "A" [.var "w", .var "u", .var "u", .strConst "s"] []).varNamesNonempty
      = true ∧
    extractPermutations (permMatrix
        ⟨"A", [.nilConst, .var "x", .var "y", .strConst "s"], []⟩
        ⟨"A", [.var "w", .var "u", .var "u", .strConst "s"], []⟩) = some [[0]] := by
  refine ⟨⟨((isValidPermutation ⟨"A", [.var "x", .var "x", .var "y"], []⟩
      ⟨"A", [.var "", .var "z", .var "z"], []⟩ [0]).getD (false, fun _ => "")).2,
    rfl, rfl, rfl⟩, by decide, by decide, by decide,
    ⟨((isValidPermutation ⟨"A", [.nilConst, .var "x", .var "y", .strConst "s"], []⟩
      ⟨"A", [.var "w", .var "u", .var "u", .strConst "s"], []⟩ [0]).getD
        (false, fun _ => "")).2, rfl, rfl, rfl⟩,
    by decide, by decide, by decide, by decide⟩

/-- C10, amended: under the claim's hypotheses (precheck passed, the
permutation was enumerated from the compatibility matrix, the run accepted
with `validMapping = true`, and name-matched body atoms share an arity)
plus the two conditions the code actually needs — no nil constant in the
left clause (the nil branch can set `validMapping = false` without breaking
and be forgiven by a later constant pair) and no right variable named by
the empty string (the variable map's unassigned sentinel) — the accepted
left-to-right variable map is a bijection between the distinct variable
names of `L` and those of `R`. -/
theorem accepted_mapping_is_bijection (L R : Clause) (ps : List (List Nat))
    (p : List Nat) (φ : String → String)
    (hpre : precheck L R = true)
    (hps : extractPermutations (permMatrix L R) = some ps) (hp : p ∈ ps)
    (hacc : isValidPermutation L R p = some (true, φ))
    (har : bodyAritiesOk L R = true)
    (hnil : L.noNil = true)
    (hne : R.varNamesNonempty = true) :
    Set.BijOn φ ↑L.varSet ↑R.varSet :=
  accepted_map_bijOn L R ps p φ hpre hps hp hacc har hnil hne

/-- C10, witness: on `L = A(x).`, `R = A(y).` with the single enumerated
permutation `[0]`, the accepted map is a bijection `{x} → {y}`. -/
theorem accepted_mapping_is_bijection_witness :
    (precheck ⟨"A", [.var "x"], []⟩ ⟨"A", [.var "y"], []⟩ = true
      ∧ extractPermutations (permMatrix ⟨"A", [.var "x"], []⟩
          ⟨"A", [.var "y"], []⟩) = some [[0]]
      ∧ [0] ∈ [[0]]
      ∧ isValidPermutation ⟨"A", [.var "x"], []⟩ ⟨"A", [.var "y"], []⟩ [0]
          = some (true, ((isValidPermutation ⟨"A", [.var "x"], []⟩
              ⟨"A", [.var "y"], []⟩ [0]).getD (false, fun _ => "")).2)
      ∧ bodyAritiesOk ⟨"A", [.var "x"], []⟩ ⟨"A", [.var "y"], []⟩ = true
      ∧ Clause.noNil ⟨"A", [.var "x"], []⟩ = true
      ∧ Clause.varNamesNonempty ⟨"A", [.var "y"], []⟩ = true)
    ∧ Set.BijOn ((isValidPermutation ⟨"A", [.var "x"], []⟩
          ⟨"A", [.var "y"], []⟩ [0]).getD (false, fun _ => "")).2
        ↑(Clause.varSet ⟨"A", [.var "x"], []⟩)
        ↑(Clause.varSet ⟨"A", [.var "y"], []⟩) :=
  ⟨⟨by decide, by decide, by decide, rfl, by decide, by decide, by decide⟩,
    accepted_mapping_is_bijection ⟨"A", [.var "x"], []⟩ ⟨"A", [.var "y"], []⟩
      [[0]] [0] _ (by decide) (by decide) (by decide) rfl (by decide)
      (by decide) (by decide)⟩

end Souffle
